import Mathlib

/-!
Verification development for the display-filter engine (BME network traffic
analyzer, `lib/dfilter`).  The repository ships the public headers
`dfilter-loc.h` and `dfilter-plugin.h`; the engine behind them (lexer, parser,
semantic analyzer, compiler, evaluator and the plugin registry implementation)
is specified in `spec.md`.  Below, the data model and the operations are
embedded shallowly: types and functions follow the headers where the headers
define them, and are otherwise modelled from the specification, as noted on
each definition.
-/

set_option maxHeartbeats 1000000

namespace DFilter

/-! ### Locations (`dfilter-loc.h`) -/

/-- Source location, from `dfilter-loc.h`: `struct _dfilter_loc` with a
`long col_start` and a `size_t col_len`. -/
structure df_loc_t where
  col_start : Int
  col_len : Nat
deriving DecidableEq, Repr

/-- Modelled from the spec: the distinguished empty location constant
(`extern df_loc_t loc_empty;` in `dfilter-loc.h`; the value is given by the
spec as start = -1, length = 0). -/
def loc_empty : df_loc_t := ⟨-1, 0⟩

/-! ### Error taxonomy (spec section 7) -/

/-- Modelled from the spec: the error taxonomy of section 7.  Every kind
except `pluginError` carries a location. -/
inductive DfError where
  | lexError (loc : df_loc_t)
  | syntaxError (loc : df_loc_t)
  | unknownIdentifier (loc : df_loc_t)
  | arityError (loc : df_loc_t)
  | typeMismatch (loc : df_loc_t)
  | patternError (loc : df_loc_t)
  | pluginError
deriving DecidableEq, Repr

/-- The location carried by an error, when it has one. -/
def DfError.location : DfError → Option df_loc_t
  | .lexError l => some l
  | .syntaxError l => some l
  | .unknownIdentifier l => some l
  | .arityError l => some l
  | .typeMismatch l => some l
  | .patternError l => some l
  | .pluginError => none

/-- The location reported to callers: the carried location, or the empty
location constant when no meaningful span exists. -/
def DfError.locationD (e : DfError) : df_loc_t :=
  (e.location).getD loc_empty

/-! ### Values and comparison kinds (spec section 3)

Modelled from the spec: `Value` is a closed tagged union; this development
embeds the boolean / integer / string / byte-sequence kinds, which are the
kinds the verified claims exercise. -/

inductive VKind where
  | kBool | kInt | kString | kBytes
deriving DecidableEq, Repr

inductive DfValue where
  | vBool (b : Bool)
  | vInt (n : Int)
  | vString (s : String)
  | vBytes (bs : List Nat)
deriving DecidableEq, Repr

def kindOf : DfValue → VKind
  | .vBool _ => .kBool
  | .vInt _ => .kInt
  | .vString _ => .kString
  | .vBytes _ => .kBytes

/-- Comparison operators of the filter grammar fragment. -/
inductive CmpOp where
  | ceq | cne | clt | cle | cgt | cge
deriving DecidableEq, Repr

/-- Strict lexicographic order on byte sequences. -/
def bytesLt : List Nat → List Nat → Bool
  | [], [] => false
  | [], _ :: _ => true
  | _ :: _, [] => false
  | a :: as, b :: bs => decide (a < b) || (decide (a = b) && bytesLt as bs)

/-- Kind-wise strict order: numeric for integers, lexicographic for strings
and byte sequences; values of different kinds are unordered. -/
def valueLt : DfValue → DfValue → Bool
  | .vInt a, .vInt b => decide (a < b)
  | .vString a, .vString b => decide (a < b)
  | .vBytes a, .vBytes b => bytesLt a b
  | _, _ => false

/-- Modelled from the spec: comparison semantics per value kind, dispatched
by exhaustive matching over the closed kind set. -/
def cmpVals (op : CmpOp) (v w : DfValue) : Bool :=
  match op with
  | .ceq => decide (v = w)
  | .cne => !(decide (v = w))
  | .clt => valueLt v w
  | .cle => valueLt v w || decide (v = w)
  | .cgt => valueLt w v
  | .cge => valueLt w v || decide (v = w)

/-! ### Lexer (spec section 4.1)

Modelled from the spec: the lexer turns filter text into a token sequence,
each token carrying a location; on an unrecognized character it reports a
`LexError` whose location is the byte offset of the offending character.  It
is embedded as a character-at-a-time state machine: `stepChar` consumes one
character, `lexRun` folds it over the input. -/

def isIdentCh (c : Char) : Bool := c.isAlphanum || c = '.' || c = '_'

def isOpCh (c : Char) : Bool :=
  c = '=' || c = '!' || c = '<' || c = '>' || c = '&' || c = '|'

def isSpaceCh (c : Char) : Bool := c = ' ' || c = '\t'

/-- Characters allowed verbatim inside a quoted string literal. -/
def isStringCh (c : Char) : Bool :=
  decide (32 ≤ c.toNat) && !(c = '"') && !(c = '\\')

/-- Characters allowed after a backslash in a quoted string. -/
def isEscapeCh (c : Char) : Bool :=
  c = '"' || c = '\\' || c = 'n' || c = 't' || c = 'r' || c = '0'

/-- A character that can occur somewhere in lexically valid filter text. -/
def validChar (c : Char) : Bool :=
  isIdentCh c || isOpCh c || isSpaceCh c ||
  c = '(' || c = ')' || c = '{' || c = '}' || c = ',' ||
  c = '"' || c = '\\' || isStringCh c || isEscapeCh c

/-- Token kinds of the grammar fragment (spec sections 4.1 and 6). -/
inductive Tok where
  | ident (s : String)
  | intLit (n : Nat)
  | strLit (s : String)
  | opEq | opNe | opLt | opLe | opGt | opGe
  | opAndT | opOrT | opNotT
  | opAssign | opAmp | opPipe
  | lparen | rparen | lbrace | rbrace | comma
deriving DecidableEq, Repr

/-- A token: kind plus location (spec section 3). -/
structure Token where
  kind : Tok
  loc : df_loc_t
deriving DecidableEq, Repr

/-- Lexer state: at a token boundary, inside an identifier/number run,
inside a string literal, right after a backslash in a string, or right after
the first character of a (possibly two-character) operator. -/
inductive LexState where
  | top
  | inIdent (start : Nat) (acc : List Char)
  | inString (start : Nat) (acc : List Char)
  | inEsc (start : Nat) (acc : List Char)
  | afterOp (c0 : Char) (start : Nat)
deriving DecidableEq, Repr

/-- Numeric value of a digit run. -/
def natOfDigits (cs : List Char) : Nat :=
  cs.foldl (fun n c => 10 * n + (c.toNat - 48)) 0

/-- Finish an identifier/number run: an all-digit run is an integer literal,
anything else a (dotted) identifier. -/
def identToken (start : Nat) (acc : List Char) : Token :=
  if acc.all (·.isDigit) then ⟨.intLit (natOfDigits acc), ⟨start, acc.length⟩⟩
  else ⟨.ident (String.mk acc), ⟨start, acc.length⟩⟩

/-- Two-character operators (maximal munch). -/
def opPair (c0 c : Char) : Option Tok :=
  if c0 = '=' && c = '=' then some .opEq
  else if c0 = '!' && c = '=' then some .opNe
  else if c0 = '<' && c = '=' then some .opLe
  else if c0 = '>' && c = '=' then some .opGe
  else if c0 = '&' && c = '&' then some .opAndT
  else if c0 = '|' && c = '|' then some .opOrT
  else none

/-- Single-character operator tokens. -/
def opSingle (c0 : Char) : Tok :=
  if c0 = '!' then .opNotT
  else if c0 = '<' then .opLt
  else if c0 = '>' then .opGt
  else if c0 = '&' then .opAmp
  else if c0 = '|' then .opPipe
  else .opAssign

/-- Dispatch one character from a token boundary. -/
def dispatchTop (c : Char) (pos : Nat) : Except DfError (List Token × LexState) :=
  if isSpaceCh c then .ok ([], .top)
  else if isIdentCh c then .ok ([], .inIdent pos [c])
  else if c = '"' then .ok ([], .inString pos [])
  else if isOpCh c then .ok ([], .afterOp c pos)
  else if c = '(' then .ok ([⟨.lparen, ⟨pos, 1⟩⟩], .top)
  else if c = ')' then .ok ([⟨.rparen, ⟨pos, 1⟩⟩], .top)
  else if c = '{' then .ok ([⟨.lbrace, ⟨pos, 1⟩⟩], .top)
  else if c = '}' then .ok ([⟨.rbrace, ⟨pos, 1⟩⟩], .top)
  else if c = ',' then .ok ([⟨.comma, ⟨pos, 1⟩⟩], .top)
  else .error (.lexError ⟨pos, 1⟩)

/-- Consume one character in the given lexer state, returning the tokens
completed by that character and the successor state. -/
def stepChar (st : LexState) (c : Char) (pos : Nat) :
    Except DfError (List Token × LexState) :=
  match st with
  | .top => dispatchTop c pos
  | .inIdent start acc =>
    if isIdentCh c then .ok ([], .inIdent start (acc ++ [c]))
    else
      match dispatchTop c pos with
      | .error e => .error e
      | .ok (ts, st') => .ok (identToken start acc :: ts, st')
  | .inString start acc =>
    if c = '"' then .ok ([⟨.strLit (String.mk acc), ⟨start, pos + 1 - start⟩⟩], .top)
    else if c = '\\' then .ok ([], .inEsc start acc)
    else if isStringCh c then .ok ([], .inString start (acc ++ [c]))
    else .error (.lexError ⟨pos, 1⟩)
  | .inEsc start acc =>
    if isEscapeCh c then .ok ([], .inString start (acc ++ [c]))
    else .error (.lexError ⟨pos, 1⟩)
  | .afterOp c0 start =>
    match opPair c0 c with
    | some k => .ok ([⟨k, ⟨start, 2⟩⟩], .top)
    | none =>
      match dispatchTop c pos with
      | .error e => .error e
      | .ok (ts, st') => .ok (⟨opSingle c0, ⟨start, 1⟩⟩ :: ts, st')

/-- Flush the lexer state at end of input; an unterminated string literal is
a lexical error at the end position. -/
def finishEnd (st : LexState) (pos : Nat) : Except DfError (List Token) :=
  match st with
  | .top => .ok []
  | .inIdent start acc => .ok [identToken start acc]
  | .afterOp c0 start => .ok [⟨opSingle c0, ⟨start, 1⟩⟩]
  | .inString _ _ => .error (.lexError ⟨pos, 1⟩)
  | .inEsc _ _ => .error (.lexError ⟨pos, 1⟩)

/-- Run the lexer over the remaining characters. -/
def lexRun (st : LexState) : List Char → Nat → Except DfError (List Token)
  | [], pos => finishEnd st pos
  | c :: cs, pos =>
    match stepChar st c pos with
    | .error e => .error e
    | .ok (ts, st') =>
      match lexRun st' cs (pos + 1) with
      | .error e => .error e
      | .ok more => .ok (ts ++ more)

/-- Lex a whole filter text. -/
def lexString (text : String) : Except DfError (List Token) :=
  lexRun .top text.toList 0

/-! ### Parser (spec section 4.2)

Modelled from the spec: recursive-descent parser with precedence
logical-or < logical-and < logical-not < comparison/membership < primary.
Every parse error reports the location of the offending token; trailing
unconsumed tokens are a syntax error at the first unexpected token. -/

/-- Unresolved atoms: a (dotted) name, an integer literal, a string
literal. -/
inductive PAtom where
  | pname (s : String) (loc : df_loc_t)
  | pnum (n : Nat) (loc : df_loc_t)
  | pstr (s : String) (loc : df_loc_t)
deriving DecidableEq, Repr

/-- Value terms: an atom, or a function call over atoms. -/
inductive PTerm where
  | atomT (a : PAtom)
  | callT (fname : String) (args : List PAtom) (loc : df_loc_t)
deriving DecidableEq, Repr

/-- Parsed expressions (the AST of spec section 3, for this fragment). -/
inductive PExpr where
  | termP (t : PTerm)
  | cmpP (op : CmpOp) (l r : PTerm) (loc : df_loc_t)
  | inSetP (t : PTerm) (vals : List PAtom) (loc : df_loc_t)
  | andP (a b : PExpr)
  | orP (a b : PExpr)
  | notP (a : PExpr)
deriving DecidableEq, Repr

/-- Word forms reserved by the grammar (spec section 6). -/
def isKeyword (s : String) : Bool :=
  s = "and" || s = "or" || s = "not" || s = "in" || s = "contains" || s = "matches"

/-- The comparison operator denoted by a token, if any. -/
def cmpOpOf : Tok → Option CmpOp
  | .opEq => some .ceq
  | .opNe => some .cne
  | .opLt => some .clt
  | .opLe => some .cle
  | .opGt => some .cgt
  | .opGe => some .cge
  | _ => none

/-- Location of the first remaining token, or the empty location at end of
input (no meaningful span). -/
def locOf : List Token → df_loc_t
  | [] => loc_empty
  | t :: _ => t.loc

/-- Parse one atom. -/
def parseAtom : List Token → Except DfError (PAtom × List Token)
  | ⟨.ident s, loc⟩ :: rest =>
    if isKeyword s then .error (.syntaxError loc) else .ok (.pname s loc, rest)
  | ⟨.intLit n, loc⟩ :: rest => .ok (.pnum n loc, rest)
  | ⟨.strLit s, loc⟩ :: rest => .ok (.pstr s loc, rest)
  | ts => .error (.syntaxError (locOf ts))

/-- Parse a comma-separated atom list up to a closing delimiter. -/
def parseAtomList (close : Tok) : Nat → List Token → Except DfError (List PAtom × List Token)
  | 0, ts => .error (.syntaxError (locOf ts))
  | fuel + 1, ts =>
    match ts with
    | [] => .error (.syntaxError loc_empty)
    | t :: rest =>
      if t.kind = close then .ok ([], rest)
      else
        match parseAtom (t :: rest) with
        | .error e => .error e
        | .ok (a, r1) =>
          match r1 with
          | [] => .error (.syntaxError loc_empty)
          | t' :: r2 =>
            if t'.kind = .comma then
              match parseAtomList close fuel r2 with
              | .error e => .error e
              | .ok (as, r3) => .ok (a :: as, r3)
            else if t'.kind = close then .ok ([a], r2)
            else .error (.syntaxError t'.loc)

/-- Parse a value term: an atom, or a call `name(a1, ..., an)`. -/
def parseTerm (fuel : Nat) (ts : List Token) : Except DfError (PTerm × List Token) :=
  match parseAtom ts with
  | .error e => .error e
  | .ok (a, r1) =>
    match a with
    | .pname s loc =>
      match r1 with
      | t :: r2 =>
        if t.kind = .lparen then
          match parseAtomList .rparen fuel r2 with
          | .error e => .error e
          | .ok (args, r3) => .ok (.callT s args loc, r3)
        else .ok (.atomT a, r1)
      | [] => .ok (.atomT a, r1)
    | _ => .ok (.atomT a, r1)

mutual

/-- Parse a disjunction. -/
def parseOr : Nat → List Token → Except DfError (PExpr × List Token)
  | 0, ts => .error (.syntaxError (locOf ts))
  | fuel + 1, ts =>
    match parseAnd fuel ts with
    | .error e => .error e
    | .ok (l, r1) => parseOrRest fuel l r1

def parseOrRest : Nat → PExpr → List Token → Except DfError (PExpr × List Token)
  | 0, _, ts => .error (.syntaxError (locOf ts))
  | fuel + 1, l, ts =>
    match ts with
    | t :: rest =>
      if t.kind = .opOrT ∨ t.kind = .ident "or" then
        match parseAnd fuel rest with
        | .error e => .error e
        | .ok (r, r2) => parseOrRest fuel (.orP l r) r2
      else .ok (l, ts)
    | [] => .ok (l, [])

/-- Parse a conjunction. -/
def parseAnd : Nat → List Token → Except DfError (PExpr × List Token)
  | 0, ts => .error (.syntaxError (locOf ts))
  | fuel + 1, ts =>
    match parseNeg fuel ts with
    | .error e => .error e
    | .ok (l, r1) => parseAndRest fuel l r1

def parseAndRest : Nat → PExpr → List Token → Except DfError (PExpr × List Token)
  | 0, _, ts => .error (.syntaxError (locOf ts))
  | fuel + 1, l, ts =>
    match ts with
    | t :: rest =>
      if t.kind = .opAndT ∨ t.kind = .ident "and" then
        match parseNeg fuel rest with
        | .error e => .error e
        | .ok (r, r2) => parseAndRest fuel (.andP l r) r2
      else .ok (l, ts)
    | [] => .ok (l, [])

/-- Parse a (possibly negated) primary. -/
def parseNeg : Nat → List Token → Except DfError (PExpr × List Token)
  | 0, ts => .error (.syntaxError (locOf ts))
  | fuel + 1, ts =>
    match ts with
    | t :: rest =>
      if t.kind = .opNotT ∨ t.kind = .ident "not" then
        match parseNeg fuel rest with
        | .error e => .error e
        | .ok (e, r1) => .ok (.notP e, r1)
      else parsePrimary fuel ts
    | [] => .error (.syntaxError loc_empty)

/-- Parse a primary: parenthesized expression, comparison, membership test,
or bare term. -/
def parsePrimary : Nat → List Token → Except DfError (PExpr × List Token)
  | 0, ts => .error (.syntaxError (locOf ts))
  | fuel + 1, ts =>
    match ts with
    | [] => .error (.syntaxError loc_empty)
    | t :: rest =>
      if t.kind = .lparen then
        match parseOr fuel rest with
        | .error e => .error e
        | .ok (e, r1) =>
          match r1 with
          | t2 :: r2 => if t2.kind = .rparen then .ok (e, r2) else .error (.syntaxError t2.loc)
          | [] => .error (.syntaxError loc_empty)
      else
        match parseTerm fuel (t :: rest) with
        | .error e => .error e
        | .ok (tm, r1) =>
          match r1 with
          | tk :: r2 =>
            match cmpOpOf tk.kind with
            | some op =>
              match parseTerm fuel r2 with
              | .error e => .error e
              | .ok (t2, r3) => .ok (.cmpP op tm t2 tk.loc, r3)
            | none =>
              if tk.kind = .ident "in" then
                match r2 with
                | t3 :: r3 =>
                  if t3.kind = .lbrace then
                    match parseAtomList .rbrace fuel r3 with
                    | .error e => .error e
                    | .ok (vals, r4) => .ok (.inSetP tm vals tk.loc, r4)
                  else .error (.syntaxError t3.loc)
                | [] => .error (.syntaxError loc_empty)
              else .ok (.termP tm, r1)
          | [] => .ok (.termP tm, [])

end

/-- Parse a whole token sequence into one expression; trailing tokens are a
syntax error at the first unexpected token. -/
def parseFilter (toks : List Token) : Except DfError PExpr :=
  match parseOr (4 * toks.length + 8) toks with
  | .error e => .error e
  | .ok (e, []) => .ok e
  | .ok (_, t :: _) => .error (.syntaxError t.loc)

/-! ### Registry and plugin functions (spec sections 2, 6)

Modelled from the spec: the field/function registry is an external
abstraction mapping dotted field names to value kinds and function names to
signatures.  Plugin function implementations form a closed set here so that
the embedding stays executable. -/

/-- A closed set of plugin function implementations. -/
inductive FuncImpl where
  | fUpper | fLower | fLen
deriving DecidableEq, Repr

/-- Apply a plugin function to evaluated argument values (plugins are pure:
read arguments, return one value). -/
def FuncImpl.apply : FuncImpl → List DfValue → DfValue
  | .fUpper, [.vString s] => .vString s.toUpper
  | .fLower, [.vString s] => .vString s.toLower
  | .fLen, [.vString s] => .vInt s.length
  | .fLen, [.vBytes bs] => .vInt bs.length
  | _, _ => .vBool false

/-- The static result kind of a plugin function. -/
def FuncImpl.retKind : FuncImpl → VKind
  | .fUpper => .kString
  | .fLower => .kString
  | .fLen => .kInt

/-- A registered filter function: name, declared arity, implementation. -/
structure FuncDef where
  name : String
  arity : Nat
  impl : FuncImpl
deriving DecidableEq, Repr

/-- The field/function registry presented to the core. -/
structure Registry where
  fields : List (String × VKind)
  funcs : List FuncDef
deriving DecidableEq, Repr

/-- Resolve a dotted field name. -/
def Registry.fieldKind (reg : Registry) (s : String) : Option VKind :=
  reg.fields.lookup s

/-- Resolve a function name. -/
def Registry.func (reg : Registry) (s : String) : Option FuncDef :=
  reg.funcs.find? (fun fd => fd.name = s)

/-! ### Semantic analyzer (spec section 4.3)

Modelled from the spec: resolves names against the registry
(`UnknownIdentifier` on failure), assigns static kinds, rejects mixed-kind
comparisons (`TypeMismatch`) and wrong-arity calls (`ArityError`), and
produces a checked tree. -/

/-- Checked atoms: a constant, or a resolved field reference. -/
inductive CAtom where
  | aconst (v : DfValue)
  | afield (f : String)
deriving DecidableEq, Repr

/-- Checked value terms. -/
inductive CTerm where
  | catom (a : CAtom)
  | ccall (impl : FuncImpl) (args : List CAtom)
deriving DecidableEq, Repr

/-- Checked expressions (the checked AST of spec section 3): a bare field
reference in boolean position is an existence test. -/
inductive CheckedExpr where
  | test (f : String)
  | cmp (op : CmpOp) (l r : CTerm)
  | inSet (t : CTerm) (vals : List DfValue)
  | cand (a b : CheckedExpr)
  | cor (a b : CheckedExpr)
  | cnot (a : CheckedExpr)
deriving DecidableEq, Repr

/-- Check one atom, resolving names against the registry. -/
def checkAtom (reg : Registry) : PAtom → Except DfError (CAtom × VKind)
  | .pname s loc =>
    match reg.fieldKind s with
    | some k => .ok (.afield s, k)
    | none => .error (.unknownIdentifier loc)
  | .pnum n _ => .ok (.aconst (.vInt n), .kInt)
  | .pstr s _ => .ok (.aconst (.vString s), .kString)

/-- Check a value term. -/
def checkTerm (reg : Registry) : PTerm → Except DfError (CTerm × VKind)
  | .atomT a =>
    match checkAtom reg a with
    | .error e => .error e
    | .ok (ca, k) => .ok (.catom ca, k)
  | .callT f args loc =>
    match reg.func f with
    | none => .error (.unknownIdentifier loc)
    | some fd =>
      if args.length = fd.arity then
        match args.mapM (fun a => (checkAtom reg a).map (·.1)) with
        | .error e => .error e
        | .ok cas => .ok (.ccall fd.impl cas, fd.impl.retKind)
      else .error (.arityError loc)

/-- A set literal element must be a constant of the stated kind. -/
def checkSetVal (k : VKind) : PAtom → Except DfError DfValue
  | .pnum n loc => if k = .kInt then .ok (.vInt n) else .error (.typeMismatch loc)
  | .pstr s loc => if k = .kString then .ok (.vString s) else .error (.typeMismatch loc)
  | .pname _ loc => .error (.typeMismatch loc)

/-- Check an expression bottom-up into a checked tree. -/
def checkExpr (reg : Registry) : PExpr → Except DfError CheckedExpr
  | .termP (.atomT (.pname s loc)) =>
    match reg.fieldKind s with
    | some _ => .ok (.test s)
    | none => .error (.unknownIdentifier loc)
  | .termP (.atomT (.pnum _ loc)) => .error (.typeMismatch loc)
  | .termP (.atomT (.pstr _ loc)) => .error (.typeMismatch loc)
  | .termP (.callT _ _ loc) => .error (.typeMismatch loc)
  | .cmpP op l r loc =>
    match checkTerm reg l with
    | .error e => .error e
    | .ok (cl, kl) =>
      match checkTerm reg r with
      | .error e => .error e
      | .ok (cr, kr) =>
        if kl = kr then .ok (.cmp op cl cr) else .error (.typeMismatch loc)
  | .inSetP t vals _ =>
    match checkTerm reg t with
    | .error e => .error e
    | .ok (ct, kt) =>
      match vals.mapM (checkSetVal kt) with
      | .error e => .error e
      | .ok vs => .ok (.inSet ct vs)
  | .andP a b =>
    match checkExpr reg a, checkExpr reg b with
    | .error e, _ => .error e
    | .ok _, .error e => .error e
    | .ok ca, .ok cb => .ok (.cand ca cb)
  | .orP a b =>
    match checkExpr reg a, checkExpr reg b with
    | .error e, _ => .error e
    | .ok _, .error e => .error e
    | .ok ca, .ok cb => .ok (.cor ca cb)
  | .notP a =>
    match checkExpr reg a with
    | .error e => .error e
    | .ok ca => .ok (.cnot ca)

/-! ### Compiler (spec section 4.4)

Modelled from the spec: lowers a checked tree to a flat instruction sequence
over a constant pool, a field table and a function table.  Constant
sub-expressions with no field references are folded at compile time.  The
cost of conditions is treated as statically unknown, so and/or chains stay
in source order, as the spec prescribes for that case. -/

/-- Instructions of the filter virtual machine (spec section 3). -/
inductive Instr where
  | loadField (i : Nat)
  | loadConst (i : Nat)
  | compare (op : CmpOp)
  | memberTest (n : Nat)
  | callFunction (i : Nat) (arity : Nat)
  | logAnd
  | logOr
  | logNot
deriving DecidableEq, Repr

/-- The compiled Filter Object: immutable instruction sequence, constant
pool, field table and function table (spec section 3). -/
structure FilterObject where
  instructions : List Instr
  constPool : List DfValue
  fieldTable : List String
  funcTable : List FuncImpl
deriving DecidableEq, Repr

/-- Compile-time pools, threaded through lowering. -/
structure CPools where
  pool : List DfValue
  fields : List String
  funcs : List FuncImpl
deriving DecidableEq, Repr

/-- Compile-time value of an atom, when it is a constant. -/
def constEvalA : CAtom → Option DfValue
  | .aconst v => some v
  | .afield _ => none

/-- Compile-time value of a term with no field references. -/
def constEvalT : CTerm → Option DfValue
  | .catom a => constEvalA a
  | .ccall impl args => (args.mapM constEvalA).map impl.apply

/-- Compile-time value of a boolean sub-expression with no field
references. -/
def constEvalB : CheckedExpr → Option Bool
  | .test _ => none
  | .cmp op l r =>
    match constEvalT l, constEvalT r with
    | some v, some w => some (cmpVals op v w)
    | _, _ => none
  | .inSet t vals =>
    (constEvalT t).map (fun v => vals.any (fun w => cmpVals .ceq v w))
  | .cand a b =>
    match constEvalB a, constEvalB b with
    | some x, some y => some (x && y)
    | _, _ => none
  | .cor a b =>
    match constEvalB a, constEvalB b with
    | some x, some y => some (x || y)
    | _, _ => none
  | .cnot a => (constEvalB a).map (fun x => !x)

/-- Emit a constant-pool load. -/
def emitConst (v : DfValue) (st : CPools) : List Instr × CPools :=
  ([.loadConst st.pool.length], { st with pool := st.pool ++ [v] })

/-- Emit a field-table load. -/
def emitField (f : String) (st : CPools) : List Instr × CPools :=
  ([.loadField st.fields.length], { st with fields := st.fields ++ [f] })

/-- Compile one atom. -/
def compileAtom : CAtom → CPools → List Instr × CPools
  | .aconst v, st => emitConst v st
  | .afield f, st => emitField f st

/-- Compile an atom list left to right. -/
def compileAtoms : List CAtom → CPools → List Instr × CPools
  | [], st => ([], st)
  | a :: as, st =>
    let r1 := compileAtom a st
    let r2 := compileAtoms as r1.2
    (r1.1 ++ r2.1, r2.2)

/-- Compile a value term, folding constant calls. -/
def compileTerm (t : CTerm) (st : CPools) : List Instr × CPools :=
  match constEvalT t with
  | some v => emitConst v st
  | none =>
    match t with
    | .catom a => compileAtom a st
    | .ccall impl args =>
      let r1 := compileAtoms args st
      (r1.1 ++ [.callFunction r1.2.funcs.length args.length],
       { r1.2 with funcs := r1.2.funcs ++ [impl] })

/-- Emit the constant loads of a set literal. -/
def compileConsts : List DfValue → CPools → List Instr × CPools
  | [], st => ([], st)
  | v :: vs, st =>
    let r1 := emitConst v st
    let r2 := compileConsts vs r1.2
    (r1.1 ++ r2.1, r2.2)

/-- Compile a checked expression, folding constant sub-expressions. -/
def compileB (e : CheckedExpr) (st : CPools) : List Instr × CPools :=
  match constEvalB e with
  | some b => emitConst (.vBool b) st
  | none =>
    match e with
    | .test f => emitField f st
    | .cmp op l r =>
      let r1 := compileTerm l st
      let r2 := compileTerm r r1.2
      (r1.1 ++ r2.1 ++ [.compare op], r2.2)
    | .inSet t vals =>
      let r1 := compileTerm t st
      let r2 := compileConsts vals r1.2
      (r1.1 ++ r2.1 ++ [.memberTest vals.length], r2.2)
    | .cand a b =>
      let r1 := compileB a st
      let r2 := compileB b r1.2
      (r1.1 ++ r2.1 ++ [.logAnd], r2.2)
    | .cor a b =>
      let r1 := compileB a st
      let r2 := compileB b r1.2
      (r1.1 ++ r2.1 ++ [.logOr], r2.2)
    | .cnot a =>
      let r1 := compileB a st
      (r1.1 ++ [.logNot], r1.2)

/-- Compile a checked tree into a self-contained Filter Object. -/
def compile (e : CheckedExpr) : FilterObject :=
  let r := compileB e ⟨[], [], []⟩
  ⟨r.1, r.2.pool, r.2.fields, r.2.funcs⟩

/-! ### Evaluator (spec section 4.5)

Modelled from the spec: a stack machine over the instruction sequence.  A
field load pushes the list of the field's occurrences in the record; a
comparison over a field with zero occurrences is false (absent is not an
error); a bare field in predicate position is an existence test.
Comparisons over repeated fields default to match-if-any-occurrence-matches. -/

/-- A record presented as its field tree: entries of field name and the
occurrence values of the field in this record. -/
abbrev Record := List (String × List DfValue)

/-- All occurrence values of a field in a record (external field-tree
contract, spec section 6). -/
def lookupField (r : Record) (f : String) : List DfValue :=
  r.foldr (fun p acc => if p.1 = f then p.2 ++ acc else acc) []

/-- Number of occurrences of a field in a record. -/
def countOccurrences (r : Record) (f : String) : Nat :=
  (lookupField r f).length

/-- Stack values: a single value, or the occurrence list of a loaded
field. -/
inductive StackVal where
  | scalar (v : DfValue)
  | fieldVals (vs : List DfValue)
deriving DecidableEq, Repr

/-- Truth value of a stack entry in predicate position: a boolean scalar is
itself, a loaded field is true exactly when it has an occurrence. -/
def truthy : StackVal → Bool
  | .scalar (.vBool b) => b
  | .scalar _ => false
  | .fieldVals vs => !vs.isEmpty

/-- Collapse a stack entry to one value for a function argument (first
occurrence of a loaded field). -/
def argVal : StackVal → DfValue
  | .scalar v => v
  | .fieldVals vs => vs.headD (.vBool false)

/-- Comparison over stack entries: any-match over field occurrences, plain
comparison over scalars.  A field with zero occurrences compares false. -/
def cmpStack (op : CmpOp) : StackVal → StackVal → Bool
  | .scalar v, .scalar w => cmpVals op v w
  | .fieldVals vs, .scalar w => vs.any (fun v => cmpVals op v w)
  | .scalar v, .fieldVals ws => ws.any (fun w => cmpVals op v w)
  | .fieldVals vs, .fieldVals ws => vs.any (fun v => ws.any (fun w => cmpVals op v w))

/-- Membership: any-match of the subject against the set values; the empty
set matches nothing. -/
def memberOf : StackVal → List DfValue → Bool
  | .scalar v, set => set.any (fun w => cmpVals .ceq v w)
  | .fieldVals vs, set => vs.any (fun v => set.any (fun w => cmpVals .ceq v w))

/-- Execute one instruction; `none` is the programming-error class of
section 7 (never reached by compiled code on any record). -/
def step (fo : FilterObject) (r : Record) : Instr → List StackVal → Option (List StackVal)
  | .loadConst i, stk => (fo.constPool.get? i).map (fun v => .scalar v :: stk)
  | .loadField i, stk => (fo.fieldTable.get? i).map (fun f => .fieldVals (lookupField r f) :: stk)
  | .compare op, b :: a :: stk => some (.scalar (.vBool (cmpStack op a b)) :: stk)
  | .compare _, _ => none
  | .memberTest n, stk =>
    match stk.drop n with
    | subj :: rest =>
      match (stk.take n).mapM (fun sv => match sv with | .scalar v => some v | _ => none) with
      | some vals => some (.scalar (.vBool (memberOf subj vals)) :: rest)
      | none => none
    | [] => none
  | .callFunction i arity, stk =>
    match fo.funcTable.get? i with
    | some impl =>
      if arity ≤ stk.length then
        some (.scalar (impl.apply ((stk.take arity).reverse.map argVal)) :: stk.drop arity)
      else none
    | none => none
  | .logAnd, b :: a :: stk => some (.scalar (.vBool (truthy a && truthy b)) :: stk)
  | .logAnd, _ => none
  | .logOr, b :: a :: stk => some (.scalar (.vBool (truthy a || truthy b)) :: stk)
  | .logOr, _ => none
  | .logNot, a :: stk => some (.scalar (.vBool (!truthy a)) :: stk)
  | .logNot, _ => none

/-- Execute an instruction sequence on a stack. -/
def execAll (fo : FilterObject) (r : Record) : List Instr → List StackVal → Option (List StackVal)
  | [], stk => some stk
  | i :: is, stk =>
    match step fo r i stk with
    | some stk' => execAll fo r is stk'
    | none => none

/-- Evaluate a Filter Object against one record: run the instructions on an
empty stack; exactly one value must remain, whose truth value is the
result. -/
def evalChecked (fo : FilterObject) (r : Record) : Option Bool :=
  match execAll fo r fo.instructions [] with
  | some [v] => some (truthy v)
  | _ => none

/-- The per-record boolean decision (defensively false on the unreachable
programming-error class). -/
def dfilter_apply (fo : FilterObject) (r : Record) : Bool :=
  (evalChecked fo r).getD false

/-! ### The compilation pipeline (spec section 2) -/

/-- Compile filter text: lex, parse, check, lower.  On failure the caller
receives a structured error and no Filter Object. -/
def compileFilter (reg : Registry) (text : String) : Except DfError FilterObject :=
  match lexString text with
  | .error e => .error e
  | .ok toks =>
    match parseFilter toks with
    | .error e => .error e
    | .ok past =>
      match checkExpr reg past with
      | .error e => .error e
      | .ok ck => .ok (compile ck)

/-- Compilation as a transition on caller state: the registry is read, never
written, so compilation failure leaves all state unchanged. -/
def compileFilterSt (reg : Registry) (text : String) :
    Except DfError FilterObject × Registry :=
  (compileFilter reg text, reg)

/-! ### Plugin registry (`dfilter-plugin.h`, spec section 4.6)

Modelled from the spec: the header declares `dfilter_plugin` as a pair of
`init`/`cleanup` entry points, a process-wide `GSList *dfilter_plugins`, and
the three operations; the implementation is not in the repository.  The
opaque C function pointers are embedded as observable descriptor data: an
identity, the function definitions the plugin's init would register, and
whether init raises `PluginError`.  Invocations of the entry points are
recorded as an event trace. -/

/-- A plugin descriptor (`dfilter_plugin` in `dfilter-plugin.h`). -/
structure dfilter_plugin where
  id : Nat
  funcs : List FuncDef
  initFails : Bool
deriving DecidableEq, Repr

/-- An invocation of a descriptor's init or cleanup entry point. -/
inductive PluginEvent where
  | initCall (p : dfilter_plugin)
  | cleanupCall (p : dfilter_plugin)
deriving DecidableEq, Repr

/-- `dfilter_plugins_register`: appends the descriptor to the process-wide
list.  The returned trace records the entry-point invocations performed by
registration: there are none. -/
def dfilter_plugins_register (ps : List dfilter_plugin) (p : dfilter_plugin) :
    List dfilter_plugin × List PluginEvent :=
  (ps ++ [p], [])

/-- Register a sequence of descriptors in order, starting from the empty
process-wide list. -/
def registerAll (ds : List dfilter_plugin) : List dfilter_plugin :=
  ds.foldl (fun l d => (dfilter_plugins_register l d).1) []

/-- `dfilter_plugins_init`: invoke every descriptor's init entry point in
registration order.  A failing init (`PluginError`) is fatal to that
plugin's registration only: its functions are not added, and the walk
continues.  Returns the invocation trace and the function registrations the
inits performed. -/
def pluginsInitAll (ps : List dfilter_plugin) : List PluginEvent × List FuncDef :=
  ps.foldl
    (fun acc p =>
      (acc.1 ++ [.initCall p], if p.initFails then acc.2 else acc.2 ++ p.funcs))
    ([], [])

/-- The invocation trace of `dfilter_plugins_init`. -/
def dfilter_plugins_init (ps : List dfilter_plugin) : List PluginEvent :=
  (pluginsInitAll ps).1

/-- `dfilter_plugins_cleanup`: invoke every descriptor's cleanup entry point
in reverse registration order. -/
def dfilter_plugins_cleanup (ps : List dfilter_plugin) : List PluginEvent :=
  ps.reverse.foldl (fun tr p => tr ++ [.cleanupCall p]) []

/-! ### Disassembly and source enumerations (spec section 8) -/

/-- Field references of an atom, in source order. -/
def atomFields : CAtom → List String
  | .aconst _ => []
  | .afield f => [f]

/-- Constants of an atom, in source order. -/
def atomConsts : CAtom → List DfValue
  | .aconst v => [v]
  | .afield _ => []

/-- Field references of a term. -/
def termFields : CTerm → List String
  | .catom a => atomFields a
  | .ccall _ args => args.flatMap atomFields

/-- Constants of a term. -/
def termConsts : CTerm → List DfValue
  | .catom a => atomConsts a
  | .ccall _ args => args.flatMap atomConsts

/-- Field references used by a source expression, in evaluation order. -/
def exprFields : CheckedExpr → List String
  | .test f => [f]
  | .cmp _ l r => termFields l ++ termFields r
  | .inSet t _ => termFields t
  | .cand a b => exprFields a ++ exprFields b
  | .cor a b => exprFields a ++ exprFields b
  | .cnot a => exprFields a

/-- Constants used by a source expression, in evaluation order. -/
def exprConsts : CheckedExpr → List DfValue
  | .test _ => []
  | .cmp _ l r => termConsts l ++ termConsts r
  | .inSet t vals => termConsts t ++ vals
  | .cand a b => exprConsts a ++ exprConsts b
  | .cor a b => exprConsts a ++ exprConsts b
  | .cnot a => exprConsts a

/-- The field references named by an instruction list, resolved in a field
table. -/
def disasmF (ins : List Instr) (tbl : List String) : List String :=
  ins.filterMap fun i =>
    match i with
    | .loadField k => tbl[k]?
    | _ => none

/-- The constants named by an instruction list, resolved in a constant
pool. -/
def disasmC (ins : List Instr) (tbl : List DfValue) : List DfValue :=
  ins.filterMap fun i =>
    match i with
    | .loadConst k => tbl[k]?
    | _ => none

/-- Disassembly: the field references named by the instruction sequence, by
resolving each field-load operand in the field table. -/
def disasmFields (fo : FilterObject) : List String :=
  disasmF fo.instructions fo.fieldTable

/-- Disassembly: the constants named by the instruction sequence, by
resolving each constant-load operand in the constant pool. -/
def disasmConsts (fo : FilterObject) : List DfValue :=
  disasmC fo.instructions fo.constPool

/-- No constant folding applies within this term. -/
def noFoldT : CTerm → Bool
  | .catom _ => true
  | .ccall impl args => (constEvalT (.ccall impl args)).isNone

/-- No constant folding applies anywhere in this expression: no comparison,
membership test or call has all-constant operands. -/
def noFoldB : CheckedExpr → Bool
  | .test _ => true
  | .cmp op l r => (constEvalB (.cmp op l r)).isNone && noFoldT l && noFoldT r
  | .inSet t vals => (constEvalB (.inSet t vals)).isNone && noFoldT t
  | .cand a b => noFoldB a && noFoldB b
  | .cor a b => noFoldB a && noFoldB b
  | .cnot a => noFoldB a

/-! ### Round-trip lemmas (claim C8)

Disassembly of the instruction lists emitted for a sub-expression, relative
to the final tables of the Filter Object. -/

/-- Looking up the position right after a list prefix. -/
theorem get_of_concat_prefix {α : Type} (u : List α) (x : α) (t : List α)
    (h : (u ++ [x]) <+: t) : t[u.length]? = some x := by
  obtain ⟨r, rfl⟩ := h
  rw [List.append_assoc, List.getElem?_append_right (Nat.le_refl _)]
  simp

/-- A constant-valued atom has no field references. -/
theorem constEvalA_some_fields {a : CAtom} {v : DfValue}
    (h : constEvalA a = some v) : atomFields a = [] := by
  cases a with
  | aconst w => rfl
  | afield f => cases h

/-- Constant-valued atom lists have no field references. -/
theorem mapM_constEvalA_fields : ∀ {args : List CAtom} {vs : List DfValue},
    args.mapM constEvalA = some vs → args.flatMap atomFields = [] := by
  intro args
  induction args with
  | nil => intro vs _; rfl
  | cons a as ih =>
    intro vs h
    rw [List.mapM_cons] at h
    cases ha : constEvalA a with
    | none => rw [ha] at h; cases h
    | some v =>
      rw [ha] at h
      cases hm : as.mapM constEvalA with
      | none => rw [hm] at h; cases h
      | some vs' =>
        rw [hm] at h
        simp [List.flatMap_cons, constEvalA_some_fields ha, ih hm]

/-- A constant-valued term has no field references. -/
theorem constEvalT_some_fields {t : CTerm} {v : DfValue}
    (h : constEvalT t = some v) : termFields t = [] := by
  cases t with
  | catom a => exact constEvalA_some_fields h
  | ccall impl args =>
    simp only [constEvalT] at h
    cases hm : args.mapM constEvalA with
    | none => rw [hm] at h; cases h
    | some vs => exact mapM_constEvalA_fields hm

/-- A constant-valued boolean sub-expression has no field references. -/
theorem constEvalB_some_fields : ∀ {e : CheckedExpr} {b : Bool},
    constEvalB e = some b → exprFields e = [] := by
  intro e
  induction e with
  | test f => intro b h; cases h
  | cmp op l r =>
    intro b h
    simp only [constEvalB] at h
    cases hl : constEvalT l with
    | none => rw [hl] at h; cases h
    | some v =>
      rw [hl] at h
      cases hr : constEvalT r with
      | none => rw [hr] at h; cases h
      | some w =>
        simp [exprFields, constEvalT_some_fields hl, constEvalT_some_fields hr]
  | inSet t vals =>
    intro b h
    simp only [constEvalB] at h
    cases ht : constEvalT t with
    | none => rw [ht] at h; cases h
    | some v => simp [exprFields, constEvalT_some_fields ht]
  | cand a c iha ihc =>
    intro b h
    simp only [constEvalB] at h
    cases ha : constEvalB a with
    | none => rw [ha] at h; cases h
    | some x =>
      rw [ha] at h
      cases hc : constEvalB c with
      | none => rw [hc] at h; cases h
      | some y => simp [exprFields, iha ha, ihc hc]
  | cor a c iha ihc =>
    intro b h
    simp only [constEvalB] at h
    cases ha : constEvalB a with
    | none => rw [ha] at h; cases h
    | some x =>
      rw [ha] at h
      cases hc : constEvalB c with
      | none => rw [hc] at h; cases h
      | some y => simp [exprFields, iha ha, ihc hc]
  | cnot a iha =>
    intro b h
    simp only [constEvalB] at h
    cases ha : constEvalB a with
    | none => rw [ha] at h; cases h
    | some x => simp [exprFields, iha ha]

/-- An unfoldable expression has no compile-time value. -/
theorem noFoldB_constEval : ∀ {e : CheckedExpr},
    noFoldB e = true → constEvalB e = none := by
  intro e
  induction e with
  | test f => intro _; rfl
  | cmp op l r =>
    intro h
    simp only [noFoldB, Bool.and_eq_true] at h
    exact Option.isNone_iff_eq_none.mp h.1.1
  | inSet t vals =>
    intro h
    simp only [noFoldB, Bool.and_eq_true] at h
    exact Option.isNone_iff_eq_none.mp h.1
  | cand a c iha ihc =>
    intro h
    simp only [noFoldB, Bool.and_eq_true] at h
    simp only [constEvalB, iha h.1]
  | cor a c iha ihc =>
    intro h
    simp only [noFoldB, Bool.and_eq_true] at h
    simp only [constEvalB, iha h.1]
  | cnot a iha =>
    intro h
    simp only [noFoldB] at h
    simp [constEvalB, iha h]

/-- Atom compilation appends exactly the atom's field references and
constants to the tables. -/
theorem compileAtom_spec (a : CAtom) (st : CPools) :
    (compileAtom a st).2.fields = st.fields ++ atomFields a ∧
    (compileAtom a st).2.pool = st.pool ++ atomConsts a := by
  cases a <;> simp [compileAtom, emitConst, emitField, atomFields, atomConsts]

/-- Atom-list compilation appends exactly the list's field references and
constants. -/
theorem compileAtoms_spec : ∀ (as : List CAtom) (st : CPools),
    (compileAtoms as st).2.fields = st.fields ++ as.flatMap atomFields ∧
    (compileAtoms as st).2.pool = st.pool ++ as.flatMap atomConsts := by
  intro as
  induction as with
  | nil => intro st; simp [compileAtoms]
  | cons a as ih =>
    intro st
    simp only [compileAtoms]
    obtain ⟨hf, hp⟩ := ih (compileAtom a st).2
    obtain ⟨haf, hap⟩ := compileAtom_spec a st
    constructor
    · rw [hf, haf]; simp [List.append_assoc]
    · rw [hp, hap]; simp [List.append_assoc]

/-- Set-literal compilation appends exactly the set's values to the pool and
leaves the field table unchanged. -/
theorem compileConsts_spec : ∀ (vs : List DfValue) (st : CPools),
    (compileConsts vs st).2.fields = st.fields ∧
    (compileConsts vs st).2.pool = st.pool ++ vs := by
  intro vs
  induction vs with
  | nil => intro st; simp [compileConsts]
  | cons v vs ih =>
    intro st
    simp only [compileConsts]
    obtain ⟨hf, hp⟩ := ih (emitConst v st).2
    constructor
    · rw [hf]; simp [emitConst]
    · rw [hp]; simp [emitConst]

/-- Term compilation appends exactly the term's field references. -/
theorem compileTerm_fields (t : CTerm) (st : CPools) :
    (compileTerm t st).2.fields = st.fields ++ termFields t := by
  cases hce : constEvalT t with
  | some v =>
    simp only [compileTerm, hce]
    simp [emitConst, constEvalT_some_fields hce]
  | none =>
    cases t with
    | catom a =>
      simp only [compileTerm, hce]
      exact (compileAtom_spec a st).1
    | ccall impl args =>
      simp only [compileTerm, hce]
      exact (compileAtoms_spec args st).1

/-- Term compilation of an unfoldable term appends exactly the term's
constants. -/
theorem compileTerm_pool (t : CTerm) (st : CPools) (hnf : noFoldT t = true) :
    (compileTerm t st).2.pool = st.pool ++ termConsts t := by
  cases hce : constEvalT t with
  | some v =>
    cases t with
    | catom a =>
      cases a with
      | aconst w =>
        simp [compileTerm, constEvalT, constEvalA, emitConst, termConsts, atomConsts]
      | afield f => cases hce
    | ccall impl args =>
      simp only [noFoldT, hce] at hnf
      cases hnf
  | none =>
    cases t with
    | catom a =>
      simp only [compileTerm, hce]
      exact (compileAtom_spec a st).2
    | ccall impl args =>
      simp only [compileTerm, hce]
      exact (compileAtoms_spec args st).2

/-- Expression compilation appends exactly the expression's field
references, whether or not constant folding applies. -/
theorem compileB_fields : ∀ (e : CheckedExpr) (st : CPools),
    (compileB e st).2.fields = st.fields ++ exprFields e := by
  intro e
  induction e with
  | test f =>
    intro st
    simp [compileB, constEvalB, emitField, exprFields]
  | cmp op l r =>
    intro st
    cases hce : constEvalB (.cmp op l r) with
    | some b =>
      simp only [compileB, hce]
      simp [emitConst, constEvalB_some_fields hce]
    | none =>
      simp only [compileB, hce]
      rw [compileTerm_fields, compileTerm_fields]
      simp [exprFields, List.append_assoc]
  | inSet t vals =>
    intro st
    cases hce : constEvalB (.inSet t vals) with
    | some b =>
      simp only [compileB, hce]
      simp [emitConst, constEvalB_some_fields hce]
    | none =>
      simp only [compileB, hce]
      rw [(compileConsts_spec vals _).1, compileTerm_fields]
      rfl
  | cand a b iha ihb =>
    intro st
    cases hce : constEvalB (.cand a b) with
    | some x =>
      simp only [compileB, hce]
      simp [emitConst, constEvalB_some_fields hce]
    | none =>
      simp only [compileB, hce]
      rw [ihb, iha]
      simp [exprFields, List.append_assoc]
  | cor a b iha ihb =>
    intro st
    cases hce : constEvalB (.cor a b) with
    | some x =>
      simp only [compileB, hce]
      simp [emitConst, constEvalB_some_fields hce]
    | none =>
      simp only [compileB, hce]
      rw [ihb, iha]
      simp [exprFields, List.append_assoc]
  | cnot a iha =>
    intro st
    cases hce : constEvalB (.cnot a) with
    | some x =>
      simp only [compileB, hce]
      simp [emitConst, constEvalB_some_fields hce]
    | none =>
      simp only [compileB, hce]
      rw [iha]
      simp [exprFields]

/-- Compilation of an expression in which no folding applies appends exactly
the expression's constants to the pool. -/
theorem compileB_pool : ∀ (e : CheckedExpr), noFoldB e = true →
    ∀ (st : CPools), (compileB e st).2.pool = st.pool ++ exprConsts e := by
  intro e
  induction e with
  | test f =>
    intro _ st
    simp [compileB, constEvalB, emitField, exprConsts]
  | cmp op l r =>
    intro hnf st
    simp only [noFoldB, Bool.and_eq_true] at hnf
    simp only [compileB, Option.isNone_iff_eq_none.mp hnf.1.1]
    rw [compileTerm_pool r _ hnf.2, compileTerm_pool l st hnf.1.2]
    simp [exprConsts, List.append_assoc]
  | inSet t vals =>
    intro hnf st
    simp only [noFoldB, Bool.and_eq_true] at hnf
    simp only [compileB, Option.isNone_iff_eq_none.mp hnf.1]
    rw [(compileConsts_spec vals _).2, compileTerm_pool t st hnf.2]
    simp [exprConsts, List.append_assoc]
  | cand a b iha ihb =>
    intro hnf st
    simp only [noFoldB, Bool.and_eq_true] at hnf
    have hna := noFoldB_constEval hnf.1
    have hnb := noFoldB_constEval hnf.2
    simp only [compileB, constEvalB, hna]
    rw [ihb hnf.2, iha hnf.1]
    simp [exprConsts, List.append_assoc]
  | cor a b iha ihb =>
    intro hnf st
    simp only [noFoldB, Bool.and_eq_true] at hnf
    have hna := noFoldB_constEval hnf.1
    simp only [compileB, constEvalB, hna]
    rw [ihb hnf.2, iha hnf.1]
    simp [exprConsts, List.append_assoc]
  | cnot a iha =>
    intro hnf st
    simp only [noFoldB] at hnf
    have hna := noFoldB_constEval hnf
    simp only [compileB, constEvalB, hna, Option.map_none']
    rw [iha hnf]
    simp [exprConsts]

/-- Disassembly distributes over appended instruction lists (fields). -/
theorem disasmF_append (i1 i2 : List Instr) (tbl : List String) :
    disasmF (i1 ++ i2) tbl = disasmF i1 tbl ++ disasmF i2 tbl := by
  simp [disasmF]

/-- Disassembly distributes over appended instruction lists (constants). -/
theorem disasmC_append (i1 i2 : List Instr) (tbl : List DfValue) :
    disasmC (i1 ++ i2) tbl = disasmC i1 tbl ++ disasmC i2 tbl := by
  simp [disasmC]

/-- Disassembling a compiled atom against any extension of the final field
table yields the atom's field references. -/
theorem compileAtom_disasmF (a : CAtom) (st : CPools) (tbl : List String)
    (h : (compileAtom a st).2.fields <+: tbl) :
    disasmF (compileAtom a st).1 tbl = atomFields a := by
  cases a with
  | aconst v => simp [compileAtom, emitConst, disasmF, atomFields]
  | afield f =>
    have hg : tbl[st.fields.length]? = some f := by
      apply get_of_concat_prefix
      simpa [compileAtom, emitField] using h
    simp [compileAtom, emitField, disasmF, atomFields, hg]

/-- Disassembling a compiled atom list yields the atoms' field references. -/
theorem compileAtoms_disasmF : ∀ (as : List CAtom) (st : CPools) (tbl : List String),
    ((compileAtoms as st).2.fields <+: tbl) →
    disasmF (compileAtoms as st).1 tbl = as.flatMap atomFields := by
  intro as
  induction as with
  | nil => intro st tbl _; simp [compileAtoms, disasmF]
  | cons a as ih =>
    intro st tbl h
    simp only [compileAtoms] at h ⊢
    have hrest : (compileAtoms as (compileAtom a st).2).2.fields <+: tbl := h
    have h1 : (compileAtom a st).2.fields <+: tbl := by
      refine List.IsPrefix.trans ⟨as.flatMap atomFields, ?_⟩ hrest
      exact ((compileAtoms_spec as (compileAtom a st).2).1).symm
    rw [disasmF_append, compileAtom_disasmF a st tbl h1, ih _ tbl hrest]
    simp

/-- Compiled set literals contain no field loads. -/
theorem compileConsts_disasmF : ∀ (vs : List DfValue) (st : CPools) (tbl : List String),
    disasmF (compileConsts vs st).1 tbl = [] := by
  intro vs
  induction vs with
  | nil => intro st tbl; simp [compileConsts, disasmF]
  | cons v vs ih =>
    intro st tbl
    simp only [compileConsts]
    rw [disasmF_append, ih]
    simp [emitConst, disasmF]

/-- Disassembling a compiled term yields the term's field references. -/
theorem compileTerm_disasmF (t : CTerm) (st : CPools) (tbl : List String)
    (h : (compileTerm t st).2.fields <+: tbl) :
    disasmF (compileTerm t st).1 tbl = termFields t := by
  cases hce : constEvalT t with
  | some v =>
    simp only [compileTerm, hce]
    simp [emitConst, disasmF, constEvalT_some_fields hce]
  | none =>
    cases t with
    | catom a =>
      simp only [compileTerm, hce] at h ⊢
      exact compileAtom_disasmF a st tbl h
    | ccall impl args =>
      simp only [compileTerm, hce] at h ⊢
      rw [disasmF_append, compileAtoms_disasmF args st tbl h]
      simp [disasmF, termFields]

/-- Disassembling a compiled expression against any extension of the final
field table yields exactly the source expression's field references. -/
theorem compileB_disasmF : ∀ (e : CheckedExpr) (st : CPools) (tbl : List String),
    ((compileB e st).2.fields <+: tbl) →
    disasmF (compileB e st).1 tbl = exprFields e := by
  intro e
  induction e with
  | test f =>
    intro st tbl h
    simp only [compileB, constEvalB] at h ⊢
    have hg : tbl[st.fields.length]? = some f := by
      apply get_of_concat_prefix
      simpa [emitField] using h
    simp [emitField, disasmF, exprFields, hg]
  | cmp op l r =>
    intro st tbl h
    cases hce : constEvalB (.cmp op l r) with
    | some b =>
      simp only [compileB, hce]
      simp [emitConst, disasmF, constEvalB_some_fields hce]
    | none =>
      rw [compileB_fields] at h
      have h2 : (compileTerm r (compileTerm l st).2).2.fields <+: tbl := by
        rw [compileTerm_fields, compileTerm_fields]
        simpa [exprFields, List.append_assoc] using h
      have h1 : (compileTerm l st).2.fields <+: tbl :=
        List.IsPrefix.trans ⟨termFields r, (compileTerm_fields r _).symm⟩ h2
      simp only [compileB, hce]
      rw [disasmF_append, disasmF_append, compileTerm_disasmF l st tbl h1,
          compileTerm_disasmF r _ tbl h2]
      simp [disasmF, exprFields]
  | inSet t vals =>
    intro st tbl h
    cases hce : constEvalB (.inSet t vals) with
    | some b =>
      simp only [compileB, hce]
      simp [emitConst, disasmF, constEvalB_some_fields hce]
    | none =>
      rw [compileB_fields] at h
      have h1 : (compileTerm t st).2.fields <+: tbl := by
        rw [compileTerm_fields]
        simpa [exprFields] using h
      simp only [compileB, hce]
      rw [disasmF_append, disasmF_append, compileTerm_disasmF t st tbl h1,
          compileConsts_disasmF vals _ tbl]
      simp [disasmF, exprFields]
  | cand a b iha ihb =>
    intro st tbl h
    cases hce : constEvalB (.cand a b) with
    | some x =>
      simp only [compileB, hce]
      simp [emitConst, disasmF, constEvalB_some_fields hce]
    | none =>
      rw [compileB_fields] at h
      have h2 : (compileB b (compileB a st).2).2.fields <+: tbl := by
        rw [compileB_fields, compileB_fields]
        simpa [exprFields, List.append_assoc] using h
      have h1 : (compileB a st).2.fields <+: tbl :=
        List.IsPrefix.trans ⟨exprFields b, (compileB_fields b _).symm⟩ h2
      simp only [compileB, hce]
      rw [disasmF_append, disasmF_append, iha st tbl h1, ihb _ tbl h2]
      simp [disasmF, exprFields]
  | cor a b iha ihb =>
    intro st tbl h
    cases hce : constEvalB (.cor a b) with
    | some x =>
      simp only [compileB, hce]
      simp [emitConst, disasmF, constEvalB_some_fields hce]
    | none =>
      rw [compileB_fields] at h
      have h2 : (compileB b (compileB a st).2).2.fields <+: tbl := by
        rw [compileB_fields, compileB_fields]
        simpa [exprFields, List.append_assoc] using h
      have h1 : (compileB a st).2.fields <+: tbl :=
        List.IsPrefix.trans ⟨exprFields b, (compileB_fields b _).symm⟩ h2
      simp only [compileB, hce]
      rw [disasmF_append, disasmF_append, iha st tbl h1, ihb _ tbl h2]
      simp [disasmF, exprFields]
  | cnot a iha =>
    intro st tbl h
    cases hce : constEvalB (.cnot a) with
    | some x =>
      simp only [compileB, hce]
      simp [emitConst, disasmF, constEvalB_some_fields hce]
    | none =>
      rw [compileB_fields] at h
      have h1 : (compileB a st).2.fields <+: tbl := by
        rw [compileB_fields]
        simpa [exprFields] using h
      simp only [compileB, hce]
      rw [disasmF_append, iha st tbl h1]
      simp [disasmF, exprFields]

/-- Disassembling a compiled atom against any extension of the final pool
yields the atom's constants. -/
theorem compileAtom_disasmC (a : CAtom) (st : CPools) (tbl : List DfValue)
    (h : (compileAtom a st).2.pool <+: tbl) :
    disasmC (compileAtom a st).1 tbl = atomConsts a := by
  cases a with
  | aconst v =>
    have hg : tbl[st.pool.length]? = some v := by
      apply get_of_concat_prefix
      simpa [compileAtom, emitConst] using h
    simp [compileAtom, emitConst, disasmC, atomConsts, hg]
  | afield f => simp [compileAtom, emitField, disasmC, atomConsts]

/-- Disassembling a compiled atom list yields the atoms' constants. -/
theorem compileAtoms_disasmC : ∀ (as : List CAtom) (st : CPools) (tbl : List DfValue),
    ((compileAtoms as st).2.pool <+: tbl) →
    disasmC (compileAtoms as st).1 tbl = as.flatMap atomConsts := by
  intro as
  induction as with
  | nil => intro st tbl _; simp [compileAtoms, disasmC]
  | cons a as ih =>
    intro st tbl h
    simp only [compileAtoms] at h ⊢
    have hrest : (compileAtoms as (compileAtom a st).2).2.pool <+: tbl := h
    have h1 : (compileAtom a st).2.pool <+: tbl := by
      refine List.IsPrefix.trans ⟨as.flatMap atomConsts, ?_⟩ hrest
      exact ((compileAtoms_spec as (compileAtom a st).2).2).symm
    rw [disasmC_append, compileAtom_disasmC a st tbl h1, ih _ tbl hrest]
    simp

/-- Disassembling a compiled set literal yields exactly the set's values. -/
theorem compileConsts_disasmC : ∀ (vs : List DfValue) (st : CPools) (tbl : List DfValue),
    ((compileConsts vs st).2.pool <+: tbl) →
    disasmC (compileConsts vs st).1 tbl = vs := by
  intro vs
  induction vs with
  | nil => intro st tbl _; simp [compileConsts, disasmC]
  | cons v vs ih =>
    intro st tbl h
    simp only [compileConsts] at h ⊢
    have hrest : (compileConsts vs (emitConst v st).2).2.pool <+: tbl := h
    have h1 : tbl[st.pool.length]? = some v := by
      apply get_of_concat_prefix
      refine List.IsPrefix.trans ⟨vs, ?_⟩ hrest
      exact ((compileConsts_spec vs (emitConst v st).2).2).symm.trans (by simp [emitConst])
    rw [disasmC_append, ih _ tbl hrest]
    simp [emitConst, disasmC, h1]

/-- Disassembling a compiled unfoldable term yields the term's constants. -/
theorem compileTerm_disasmC (t : CTerm) (st : CPools) (tbl : List DfValue)
    (hnf : noFoldT t = true) (h : (compileTerm t st).2.pool <+: tbl) :
    disasmC (compileTerm t st).1 tbl = termConsts t := by
  cases hce : constEvalT t with
  | some v =>
    cases t with
    | catom a =>
      cases a with
      | aconst w =>
        have hpool : (compileTerm (.catom (.aconst w)) st).2.pool = st.pool ++ [w] := by
          simp [compileTerm, constEvalT, constEvalA, emitConst]
        have hg : tbl[st.pool.length]? = some w := by
          apply get_of_concat_prefix
          rw [← hpool]
          exact h
        simp [compileTerm, constEvalT, constEvalA, emitConst, disasmC, termConsts,
              atomConsts, hg]
      | afield f => cases hce
    | ccall impl args =>
      simp only [noFoldT, hce] at hnf
      cases hnf
  | none =>
    cases t with
    | catom a =>
      simp only [compileTerm, hce] at h ⊢
      exact compileAtom_disasmC a st tbl h
    | ccall impl args =>
      simp only [compileTerm, hce] at h ⊢
      rw [disasmC_append, compileAtoms_disasmC args st tbl h]
      simp [disasmC, termConsts]

/-- Disassembling a compiled expression in which no folding applies, against
any extension of the final pool, yields exactly the source expression's
constants. -/
theorem compileB_disasmC : ∀ (e : CheckedExpr), noFoldB e = true →
    ∀ (st : CPools) (tbl : List DfValue),
    ((compileB e st).2.pool <+: tbl) →
    disasmC (compileB e st).1 tbl = exprConsts e := by
  intro e
  induction e with
  | test f =>
    intro _ st tbl _
    simp [compileB, constEvalB, emitField, disasmC, exprConsts]
  | cmp op l r =>
    intro hnf st tbl h
    simp only [noFoldB, Bool.and_eq_true] at hnf
    have hce := Option.isNone_iff_eq_none.mp hnf.1.1
    rw [compileB_pool _ (by simp [noFoldB, hnf.1.1, hnf.1.2, hnf.2])] at h
    have h2 : (compileTerm r (compileTerm l st).2).2.pool <+: tbl := by
      rw [compileTerm_pool r _ hnf.2, compileTerm_pool l st hnf.1.2]
      simpa [exprConsts, List.append_assoc] using h
    have h1 : (compileTerm l st).2.pool <+: tbl :=
      List.IsPrefix.trans ⟨termConsts r, (compileTerm_pool r _ hnf.2).symm⟩ h2
    simp only [compileB, hce]
    rw [disasmC_append, disasmC_append, compileTerm_disasmC l st tbl hnf.1.2 h1,
        compileTerm_disasmC r _ tbl hnf.2 h2]
    simp [disasmC, exprConsts]
  | inSet t vals =>
    intro hnf st tbl h
    simp only [noFoldB, Bool.and_eq_true] at hnf
    have hce := Option.isNone_iff_eq_none.mp hnf.1
    rw [compileB_pool _ (by simp [noFoldB, hnf.1, hnf.2])] at h
    have h2 : (compileConsts vals (compileTerm t st).2).2.pool <+: tbl := by
      rw [(compileConsts_spec vals _).2, compileTerm_pool t st hnf.2]
      simpa [exprConsts, List.append_assoc] using h
    have h1 : (compileTerm t st).2.pool <+: tbl :=
      List.IsPrefix.trans ⟨vals, ((compileConsts_spec vals _).2).symm⟩ h2
    simp only [compileB, hce]
    rw [disasmC_append, disasmC_append, compileTerm_disasmC t st tbl hnf.2 h1,
        compileConsts_disasmC vals _ tbl h2]
    simp [disasmC, exprConsts]
  | cand a b iha ihb =>
    intro hnf st tbl h
    simp only [noFoldB, Bool.and_eq_true] at hnf
    have hna := noFoldB_constEval hnf.1
    rw [compileB_pool _ (by simp [noFoldB, hnf.1, hnf.2])] at h
    have h2 : (compileB b (compileB a st).2).2.pool <+: tbl := by
      rw [compileB_pool b hnf.2, compileB_pool a hnf.1]
      simpa [exprConsts, List.append_assoc] using h
    have h1 : (compileB a st).2.pool <+: tbl :=
      List.IsPrefix.trans ⟨exprConsts b, (compileB_pool b hnf.2 _).symm⟩ h2
    simp only [compileB, constEvalB, hna]
    rw [disasmC_append, disasmC_append, iha hnf.1 st tbl h1, ihb hnf.2 _ tbl h2]
    simp [disasmC, exprConsts]
  | cor a b iha ihb =>
    intro hnf st tbl h
    simp only [noFoldB, Bool.and_eq_true] at hnf
    have hna := noFoldB_constEval hnf.1
    rw [compileB_pool _ (by simp [noFoldB, hnf.1, hnf.2])] at h
    have h2 : (compileB b (compileB a st).2).2.pool <+: tbl := by
      rw [compileB_pool b hnf.2, compileB_pool a hnf.1]
      simpa [exprConsts, List.append_assoc] using h
    have h1 : (compileB a st).2.pool <+: tbl :=
      List.IsPrefix.trans ⟨exprConsts b, (compileB_pool b hnf.2 _).symm⟩ h2
    simp only [compileB, constEvalB, hna]
    rw [disasmC_append, disasmC_append, iha hnf.1 st tbl h1, ihb hnf.2 _ tbl h2]
    simp [disasmC, exprConsts]
  | cnot a iha =>
    intro hnf st tbl h
    simp only [noFoldB] at hnf
    have hna := noFoldB_constEval hnf
    rw [compileB_pool _ (by simp [noFoldB, hnf])] at h
    have h1 : (compileB a st).2.pool <+: tbl := by
      rw [compileB_pool a hnf]
      simpa [exprConsts] using h
    simp only [compileB, constEvalB, hna, Option.map_none']
    rw [disasmC_append, iha hnf st tbl h1]
    simp [disasmC, exprConsts]

/-! ### Injection lemmas (claim C9) -/

/-- Inject one character at byte offset `i`. -/
def insertAt (l : List Char) (i : Nat) (c : Char) : List Char :=
  l.take i ++ c :: l.drop i

/-- Inject one character at byte offset `i` of a filter text. -/
def injectString (t : String) (i : Nat) (c : Char) : String :=
  String.mk (insertAt t.toList i c)

/-- The component facts of an invalid character. -/
theorem invalid_char_facts {c : Char} (h : validChar c = false) :
    isIdentCh c = false ∧ isOpCh c = false ∧ isSpaceCh c = false ∧
    ¬(c = '(') ∧ ¬(c = ')') ∧ ¬(c = '{') ∧ ¬(c = '}') ∧ ¬(c = ',') ∧
    ¬(c = '"') ∧ ¬(c = '\\') ∧ isStringCh c = false ∧ isEscapeCh c = false := by
  simp only [validChar, Bool.or_eq_false_iff, decide_eq_false_iff_not] at h
  obtain ⟨⟨⟨⟨⟨⟨⟨⟨⟨⟨⟨h1, h2⟩, h3⟩, h4⟩, h5⟩, h6⟩, h7⟩, h8⟩, h9⟩, h10⟩, h11⟩, h12⟩ := h
  exact ⟨h1, h2, h3, h4, h5, h6, h7, h8, h9, h10, h11, h12⟩

/-- An invalid character never completes a two-character operator. -/
theorem opPair_invalid {c : Char} (c0 : Char) (h : isOpCh c = false) :
    opPair c0 c = none := by
  simp only [isOpCh, Bool.or_eq_false_iff, decide_eq_false_iff_not] at h
  obtain ⟨⟨⟨⟨⟨h1, h2⟩, h3⟩, h4⟩, h5⟩, h6⟩ := h
  simp [opPair, h1, h5, h6]

/-- A boundary dispatch of an invalid character reports a lexical error at
its position. -/
theorem dispatchTop_invalid {c : Char} (pos : Nat) (h : validChar c = false) :
    dispatchTop c pos = .error (.lexError ⟨pos, 1⟩) := by
  obtain ⟨h1, h2, h3, h4, h5, h6, h7, h8, h9, _, _, _⟩ := invalid_char_facts h
  simp [dispatchTop, h1, h2, h3, h4, h5, h6, h7, h8, h9]

/-- In every lexer state, consuming an invalid character reports a lexical
error at its position. -/
theorem stepChar_invalid (st : LexState) {c : Char} (pos : Nat)
    (h : validChar c = false) :
    stepChar st c pos = .error (.lexError ⟨pos, 1⟩) := by
  obtain ⟨h1, h2, _, _, _, _, _, _, h9, h10, h11, h12⟩ := invalid_char_facts h
  cases st with
  | top => exact dispatchTop_invalid pos h
  | inIdent start acc => simp [stepChar, h1, dispatchTop_invalid pos h]
  | inString start acc => simp [stepChar, h9, h10, h11]
  | inEsc start acc => simp [stepChar, h12]
  | afterOp c0 start =>
    simp [stepChar, opPair_invalid c0 h2, dispatchTop_invalid pos h]

/-- Injecting an invalid character at offset `i` into input that lexes
successfully makes the lexer fail exactly at position `pos + i`. -/
theorem lexRun_insert : ∀ (s : List Char) (st : LexState) (pos i : Nat) (c : Char)
    (toks : List Token), lexRun st s pos = .ok toks → validChar c = false →
    i ≤ s.length →
    lexRun st (insertAt s i c) pos = .error (.lexError ⟨pos + i, 1⟩) := by
  intro s
  induction s with
  | nil =>
    intro st pos i c toks _ hc hi
    have hz : i = 0 := Nat.le_zero.mp hi
    subst hz
    simp [insertAt, lexRun, stepChar_invalid st pos hc]
  | cons a s ih =>
    intro st pos i c toks hok hc hi
    cases i with
    | zero =>
      simp [insertAt, lexRun, stepChar_invalid st pos hc]
    | succ j =>
      have hj : j ≤ s.length := Nat.succ_le_succ_iff.mp hi
      have hins : insertAt (a :: s) (j + 1) c = a :: insertAt s j c := by
        simp [insertAt]
      simp only [lexRun] at hok
      cases hs : stepChar st a pos with
      | error e => rw [hs] at hok; cases hok
      | ok p =>
        obtain ⟨emitted, st'⟩ := p
        rw [hs] at hok
        dsimp only at hok
        cases hr : lexRun st' s (pos + 1) with
        | error e => rw [hr] at hok; cases hok
        | ok more =>
          rw [hins]
          simp only [lexRun, hs]
          rw [ih st' (pos + 1) j c more hr hc hj]
          dsimp only
          simp only [Except.error.injEq, DfError.lexError.injEq, df_loc_t.mk.injEq, and_true]
          omega

/-! ### Concrete instances used by the witnesses -/

/-- A sample field/function registry (external collaborator, spec
section 6). -/
def demoReg : Registry :=
  { fields := [("tcp.port", .kInt), ("ip.addr", .kInt),
               ("http.request.method", .kString), ("eth.src", .kBytes)],
    funcs := [⟨"upper", 1, .fUpper⟩, ⟨"len", 1, .fLen⟩] }

/-- A sample record. -/
def demoRecord : Record :=
  [("tcp.port", [.vInt 80]), ("http.request.method", [.vString "GET"])]

/-- The Filter Object compiled from `tcp.port == 80` under `demoReg`. -/
def demoFO : FilterObject :=
  ⟨[.loadField 0, .loadConst 0, .compare .ceq], [.vInt 80], ["tcp.port"], []⟩

/-- The checked tree of `tcp.port == 80`. -/
def demoCk : CheckedExpr :=
  .cmp .ceq (.catom (.afield "tcp.port")) (.catom (.aconst (.vInt 80)))

/-- A fully constant comparison (`1 == 1`), folded by the compiler. -/
def foldEx : CheckedExpr :=
  .cmp .ceq (.catom (.aconst (.vInt 1))) (.catom (.aconst (.vInt 1)))

/-- Sample plugin descriptors; `demoP2`'s init raises `PluginError`. -/
def demoP1 : dfilter_plugin := ⟨1, [⟨"upper", 1, .fUpper⟩], false⟩

def demoP2 : dfilter_plugin := ⟨2, [⟨"lower", 1, .fLower⟩], true⟩

def demoP3 : dfilter_plugin := ⟨3, [⟨"len", 1, .fLen⟩], false⟩

def demoPlugins : List dfilter_plugin := [demoP1, demoP2, demoP3]

/-! ### Claim C1: evaluation is deterministic -/

/-- Claim C1: for every filter text that is syntactically valid and accepted
by semantic analysis, and for every record, evaluating the compiled Filter
Object is deterministic: any two evaluations of the same (Filter Object,
record) pair produce the same single boolean result. -/
theorem eval_deterministic (reg : Registry) (text : String) (fo : FilterObject)
    (r : Record) (b1 b2 : Bool)
    (_hc : compileFilter reg text = .ok fo)
    (h1 : dfilter_apply fo r = b1) (h2 : dfilter_apply fo r = b2) : b1 = b2 := by
  rw [← h1, ← h2]

/-- Witness for C1 at `tcp.port == 80` on a concrete record. -/
theorem eval_deterministic_witness :
    dfilter_apply demoFO demoRecord = dfilter_apply demoFO demoRecord :=
  eval_deterministic demoReg "tcp.port == 80" demoFO demoRecord _ _ rfl rfl rfl

/-! ### Claim C2: absent fields compare false, never error -/

/-- Claim C2: a comparison consuming a field with zero occurrences in the
record evaluates to false (not an error, not an abort), and a bare existence
test on that field also evaluates to false.  Stated both at whole-filter
level (for comparisons on either side and for the existence test) and as
`some false` of the checked evaluator, which rules out the error outcome. -/
theorem absent_field_false (r : Record) (f : String) (op : CmpOp) (w : DfValue)
    (h : countOccurrences r f = 0) :
    evalChecked (compile (.cmp op (.catom (.afield f)) (.catom (.aconst w)))) r = some false ∧
    evalChecked (compile (.cmp op (.catom (.aconst w)) (.catom (.afield f)))) r = some false ∧
    evalChecked (compile (.test f)) r = some false ∧
    (∀ (fo : FilterObject) (stk : List StackVal),
      step fo r (.compare op) (.scalar w :: .fieldVals (lookupField r f) :: stk) =
        some (.scalar (.vBool false) :: stk)) ∧
    (∀ (fo : FilterObject) (stk : List StackVal),
      step fo r (.compare op) (.fieldVals (lookupField r f) :: .scalar w :: stk) =
        some (.scalar (.vBool false) :: stk)) := by
  have hl : lookupField r f = [] := by
    have := h
    unfold countOccurrences at this
    exact List.length_eq_zero.mp this
  refine ⟨?_, ?_, ?_, ?_, ?_⟩ <;>
    simp [compile, compileB, compileTerm, compileAtom, emitConst, emitField,
          constEvalB, constEvalT, constEvalA, evalChecked, execAll, step,
          cmpStack, truthy, hl]

/-- Witness for C2 on a record lacking the field `udp.port`. -/
theorem absent_field_false_witness :
    evalChecked (compile (.cmp .ceq (.catom (.afield "udp.port"))
      (.catom (.aconst (.vInt 5))))) demoRecord = some false ∧
    evalChecked (compile (.cmp .ceq (.catom (.aconst (.vInt 5)))
      (.catom (.afield "udp.port")))) demoRecord = some false ∧
    evalChecked (compile (.test "udp.port")) demoRecord = some false :=
  ⟨(absent_field_false demoRecord "udp.port" .ceq (.vInt 5) (by decide)).1,
   (absent_field_false demoRecord "udp.port" .ceq (.vInt 5) (by decide)).2.1,
   (absent_field_false demoRecord "udp.port" .ceq (.vInt 5) (by decide)).2.2.1⟩

/-! ### Claim C4: init in registration order, cleanup in reverse -/

/-- Folding append-of-singleton over a list from an accumulator. -/
theorem foldl_concat_map {α β : Type} (g : α → β) (l : List α) :
    ∀ acc : List β, l.foldl (fun tr p => tr ++ [g p]) acc = acc ++ l.map g := by
  induction l with
  | nil => simp
  | cons a l ih => intro acc; simp [ih, List.append_assoc]

/-- Registering a sequence of descriptors yields exactly that sequence. -/
theorem registerAll_eq (ds : List dfilter_plugin) : registerAll ds = ds := by
  have gen : ∀ acc, ds.foldl (fun l d => (dfilter_plugins_register l d).1) acc = acc ++ ds := by
    induction ds with
    | nil => simp
    | cons d ds ih =>
      intro acc
      rw [List.foldl_cons, ih]
      simp [dfilter_plugins_register]
  simpa [registerAll] using gen []

/-- The init trace is the plugin list in order. -/
theorem pluginsInitAll_trace (ps : List dfilter_plugin) :
    (pluginsInitAll ps).1 = ps.map .initCall := by
  have gen : ∀ acc : List PluginEvent × List FuncDef,
      (ps.foldl (fun acc p =>
        (acc.1 ++ [PluginEvent.initCall p],
         if p.initFails then acc.2 else acc.2 ++ p.funcs)) acc).1 =
      acc.1 ++ ps.map .initCall := by
    induction ps with
    | nil => simp
    | cons p ps ih => intro acc; simp [ih, List.append_assoc]
  simpa [pluginsInitAll] using gen ([], [])

/-- The functions registered by init are those of the non-failing plugins,
in order. -/
theorem pluginsInitAll_funcs (ps : List dfilter_plugin) :
    (pluginsInitAll ps).2 =
      (ps.filter (fun q => !q.initFails)).flatMap (·.funcs) := by
  have gen : ∀ acc : List PluginEvent × List FuncDef,
      (ps.foldl (fun acc p =>
        (acc.1 ++ [PluginEvent.initCall p],
         if p.initFails then acc.2 else acc.2 ++ p.funcs)) acc).2 =
      acc.2 ++ (ps.filter (fun q => !q.initFails)).flatMap (·.funcs) := by
    induction ps with
    | nil => simp
    | cons p ps ih =>
      intro acc
      cases hp : p.initFails <;> simp [hp, ih, List.append_assoc]
  simpa [pluginsInitAll] using gen ([], [])

/-- Claim C4: for every sequence of registered plugin descriptors, init-all
invokes each descriptor's init exactly once in registration order, and
cleanup-all invokes each cleanup exactly once in reverse registration
order. -/
theorem plugins_init_cleanup_order (ds : List dfilter_plugin) :
    dfilter_plugins_init (registerAll ds) = ds.map .initCall ∧
    dfilter_plugins_cleanup (registerAll ds) = (ds.map .cleanupCall).reverse ∧
    (∀ d, (dfilter_plugins_init (registerAll ds)).count (.initCall d) = ds.count d) ∧
    (∀ d, (dfilter_plugins_cleanup (registerAll ds)).count (.cleanupCall d) = ds.count d) := by
  have hinj1 : Function.Injective PluginEvent.initCall := by
    intro a b h; cases h; rfl
  have hinj2 : Function.Injective PluginEvent.cleanupCall := by
    intro a b h; cases h; rfl
  have h1 : dfilter_plugins_init (registerAll ds) = ds.map .initCall := by
    rw [registerAll_eq]; exact pluginsInitAll_trace ds
  have h2 : dfilter_plugins_cleanup (registerAll ds) = (ds.map .cleanupCall).reverse := by
    rw [registerAll_eq]
    unfold dfilter_plugins_cleanup
    rw [foldl_concat_map]
    simp
  refine ⟨h1, h2, ?_, ?_⟩
  · intro d
    rw [h1]
    exact List.count_map_of_injective ds PluginEvent.initCall hinj1 d
  · intro d
    rw [h2]
    rw [List.count_reverse]
    exact List.count_map_of_injective ds PluginEvent.cleanupCall hinj2 d

/-! ### Claim C6: a failing plugin init is fatal to that plugin only -/

/-- Claim C6: a `PluginError` raised during one plugin's init is fatal only
to that plugin's registration: every plugin's init entry point is still
invoked, every non-failing plugin's functions are still registered, and core
filter compilation proceeds exactly as if only the successful plugins had
been registered. -/
theorem plugin_failure_isolated (ps : List dfilter_plugin) (p : dfilter_plugin)
    (_hp : p ∈ ps) (_hf : p.initFails = true) :
    (∀ q ∈ ps, PluginEvent.initCall q ∈ (pluginsInitAll ps).1) ∧
    (pluginsInitAll ps).2 = (ps.filter (fun q => !q.initFails)).flatMap (·.funcs) ∧
    (∀ q ∈ ps, q.initFails = false → ∀ fd ∈ q.funcs, fd ∈ (pluginsInitAll ps).2) ∧
    (∀ flds text,
      compileFilter ⟨flds, (pluginsInitAll ps).2⟩ text =
        compileFilter ⟨flds, (pluginsInitAll (ps.filter (fun q => !q.initFails))).2⟩ text) := by
  have hsame : (pluginsInitAll (ps.filter (fun q => !q.initFails))).2 = (pluginsInitAll ps).2 := by
    rw [pluginsInitAll_funcs, pluginsInitAll_funcs, List.filter_filter]
    simp
  refine ⟨?_, pluginsInitAll_funcs ps, ?_, ?_⟩
  · intro q hq
    rw [pluginsInitAll_trace]
    exact List.mem_map_of_mem _ hq
  · intro q hq hqf fd hfd
    rw [pluginsInitAll_funcs]
    exact List.mem_flatMap.mpr ⟨q, List.mem_filter.mpr ⟨hq, by simp [hqf]⟩, hfd⟩
  · intro flds text
    rw [hsame]

/-- Witness for C6: with `demoP2` failing, both remaining inits run and its
function set is exactly that of the non-failing plugins. -/
theorem plugin_failure_isolated_witness :
    PluginEvent.initCall demoP3 ∈ (pluginsInitAll demoPlugins).1 ∧
    (pluginsInitAll demoPlugins).2 =
      (demoPlugins.filter (fun q => !q.initFails)).flatMap (·.funcs) :=
  ⟨(plugin_failure_isolated demoPlugins demoP2 (by decide) (by decide)).1 demoP3 (by decide),
   (plugin_failure_isolated demoPlugins demoP2 (by decide) (by decide)).2.1⟩

/-! ### Claim C3: compilation failures are structured and recoverable -/

/-- A boundary dispatch can only fail with a lexical error at the offending
character. -/
theorem dispatchTop_error {c : Char} {pos : Nat} {e : DfError}
    (h : dispatchTop c pos = .error e) : e = .lexError ⟨pos, 1⟩ := by
  unfold dispatchTop at h
  split_ifs at h <;> simp_all

/-- A lexer step can only fail with a lexical error at the offending
character. -/
theorem stepChar_error {st : LexState} {c : Char} {pos : Nat} {e : DfError}
    (h : stepChar st c pos = .error e) : e = .lexError ⟨pos, 1⟩ := by
  cases st with
  | top => exact dispatchTop_error h
  | inIdent start acc =>
    simp only [stepChar] at h
    split_ifs at h
    cases hd : dispatchTop c pos with
    | error e' => rw [hd] at h; cases h; exact dispatchTop_error hd
    | ok p => rw [hd] at h; cases h
  | inString start acc =>
    simp only [stepChar] at h
    split_ifs at h <;> simp_all
  | inEsc start acc =>
    simp only [stepChar] at h
    split_ifs at h <;> simp_all
  | afterOp c0 start =>
    simp only [stepChar] at h
    cases hp : opPair c0 c with
    | some k => rw [hp] at h; cases h
    | none =>
      rw [hp] at h
      cases hd : dispatchTop c pos with
      | error e' => rw [hd] at h; cases h; exact dispatchTop_error hd
      | ok p => rw [hd] at h; cases h

/-- Flushing at end of input can only fail with a lexical error. -/
theorem finishEnd_error {st : LexState} {pos : Nat} {e : DfError}
    (h : finishEnd st pos = .error e) : e = .lexError ⟨pos, 1⟩ := by
  cases st <;> simp_all [finishEnd]

/-- Every lexer failure is a `LexError`, which carries a location. -/
theorem lexRun_error (s : List Char) : ∀ (st : LexState) (pos : Nat) (e : DfError),
    lexRun st s pos = .error e → ∃ l, e = .lexError l := by
  induction s with
  | nil =>
    intro st pos e h
    exact ⟨_, finishEnd_error h⟩
  | cons c cs ih =>
    intro st pos e h
    simp only [lexRun] at h
    cases hs : stepChar st c pos with
    | error e' => rw [hs] at h; cases h; exact ⟨_, stepChar_error hs⟩
    | ok p =>
      obtain ⟨emitted, st'⟩ := p
      rw [hs] at h
      dsimp only at h
      cases hr : lexRun st' cs (pos + 1) with
      | error e' => rw [hr] at h; cases h; exact ih st' (pos + 1) e hr
      | ok more => rw [hr] at h; cases h

/-- Every atom-parse failure is a `SyntaxError`. -/
theorem parseAtom_error {ts : List Token} {e : DfError}
    (h : parseAtom ts = .error e) : ∃ l, e = .syntaxError l := by
  match ts with
  | [] => simp [parseAtom, locOf] at h; exact ⟨_, h.symm⟩
  | ⟨.ident s, loc⟩ :: rest =>
    simp only [parseAtom] at h
    split_ifs at h
    cases h
    exact ⟨_, rfl⟩
  | ⟨.intLit n, loc⟩ :: rest => simp [parseAtom] at h
  | ⟨.strLit s, loc⟩ :: rest => simp [parseAtom] at h
  | ⟨.opEq, loc⟩ :: rest | ⟨.opNe, loc⟩ :: rest | ⟨.opLt, loc⟩ :: rest
  | ⟨.opLe, loc⟩ :: rest | ⟨.opGt, loc⟩ :: rest | ⟨.opGe, loc⟩ :: rest
  | ⟨.opAndT, loc⟩ :: rest | ⟨.opOrT, loc⟩ :: rest | ⟨.opNotT, loc⟩ :: rest
  | ⟨.opAssign, loc⟩ :: rest | ⟨.opAmp, loc⟩ :: rest | ⟨.opPipe, loc⟩ :: rest
  | ⟨.lparen, loc⟩ :: rest | ⟨.rparen, loc⟩ :: rest | ⟨.lbrace, loc⟩ :: rest
  | ⟨.rbrace, loc⟩ :: rest | ⟨.comma, loc⟩ :: rest =>
    simp [parseAtom] at h; exact ⟨_, h.symm⟩

/-- Every atom-list-parse failure is a `SyntaxError`. -/
theorem parseAtomList_error (close : Tok) : ∀ (fuel : Nat) (ts : List Token) (e : DfError),
    parseAtomList close fuel ts = .error e → ∃ l, e = .syntaxError l := by
  intro fuel
  induction fuel with
  | zero => intro ts e h; simp [parseAtomList] at h; exact ⟨_, h.symm⟩
  | succ fuel ih =>
    intro ts e h
    match ts with
    | [] => simp [parseAtomList] at h; exact ⟨_, h.symm⟩
    | t :: rest =>
      simp only [parseAtomList] at h
      split_ifs at h with hc
      cases ha : parseAtom (t :: rest) with
      | error e' => rw [ha] at h; cases h; exact parseAtom_error ha
      | ok p =>
        rw [ha] at h
        obtain ⟨a, r1⟩ := p
        dsimp only at h
        match r1 with
        | [] => cases h; exact ⟨_, rfl⟩
        | t' :: r2 =>
          dsimp only at h
          split_ifs at h with h1 h2
          · cases hl : parseAtomList close fuel r2 with
            | error e' => rw [hl] at h; cases h; exact ih r2 e hl
            | ok q =>
              rw [hl] at h
              obtain ⟨as, r3⟩ := q
              dsimp only at h
              cases h
          · cases h; exact ⟨_, rfl⟩

/-- Every term-parse failure is a `SyntaxError`. -/
theorem parseTerm_error {fuel : Nat} {ts : List Token} {e : DfError}
    (h : parseTerm fuel ts = .error e) : ∃ l, e = .syntaxError l := by
  unfold parseTerm at h
  cases ha : parseAtom ts with
  | error e' => rw [ha] at h; cases h; exact parseAtom_error ha
  | ok p =>
    rw [ha] at h
    obtain ⟨a, r1⟩ := p
    dsimp only at h
    cases a with
    | pname s loc =>
      match r1 with
      | [] => cases h
      | t :: r2 =>
        dsimp only at h
        split_ifs at h with hlp
        cases hl : parseAtomList .rparen fuel r2 with
        | error e' => rw [hl] at h; cases h; exact parseAtomList_error _ fuel r2 e hl
        | ok q =>
          rw [hl] at h
          obtain ⟨args, r3⟩ := q
          dsimp only at h
          cases h
    | pnum n loc => cases h
    | pstr s loc => cases h

/-- Every failure of the expression parser is a `SyntaxError`. -/
theorem parse_errors_located (fuel : Nat) :
    (∀ ts e, parseOr fuel ts = .error e → ∃ l, e = .syntaxError l) ∧
    (∀ l0 ts e, parseOrRest fuel l0 ts = .error e → ∃ l, e = .syntaxError l) ∧
    (∀ ts e, parseAnd fuel ts = .error e → ∃ l, e = .syntaxError l) ∧
    (∀ l0 ts e, parseAndRest fuel l0 ts = .error e → ∃ l, e = .syntaxError l) ∧
    (∀ ts e, parseNeg fuel ts = .error e → ∃ l, e = .syntaxError l) ∧
    (∀ ts e, parsePrimary fuel ts = .error e → ∃ l, e = .syntaxError l) := by
  induction fuel with
  | zero =>
    refine ⟨fun ts e h => ?_, fun l0 ts e h => ?_, fun ts e h => ?_,
            fun l0 ts e h => ?_, fun ts e h => ?_, fun ts e h => ?_⟩ <;>
      (cases h; exact ⟨_, rfl⟩)
  | succ fuel ih =>
    obtain ⟨ihOr, ihOrRest, ihAnd, ihAndRest, ihNeg, ihPrim⟩ := ih
    refine ⟨?_, ?_, ?_, ?_, ?_, ?_⟩
    · intro ts e h
      simp only [parseOr] at h
      cases ha : parseAnd fuel ts with
      | error e' => rw [ha] at h; cases h; exact ihAnd ts e ha
      | ok p =>
        rw [ha] at h
        obtain ⟨l0, r1⟩ := p
        dsimp only at h
        exact ihOrRest l0 r1 e h
    · intro l0 ts e h
      simp only [parseOrRest] at h
      match ts with
      | [] => cases h
      | t :: rest =>
        dsimp only at h
        split_ifs at h with hop
        cases ha : parseAnd fuel rest with
        | error e' => rw [ha] at h; cases h; exact ihAnd rest e ha
        | ok p =>
          rw [ha] at h
          obtain ⟨r, r2⟩ := p
          dsimp only at h
          exact ihOrRest (.orP l0 r) r2 e h
    · intro ts e h
      simp only [parseAnd] at h
      cases ha : parseNeg fuel ts with
      | error e' => rw [ha] at h; cases h; exact ihNeg ts e ha
      | ok p =>
        rw [ha] at h
        obtain ⟨l0, r1⟩ := p
        dsimp only at h
        exact ihAndRest l0 r1 e h
    · intro l0 ts e h
      simp only [parseAndRest] at h
      match ts with
      | [] => cases h
      | t :: rest =>
        dsimp only at h
        split_ifs at h with hop
        cases ha : parseNeg fuel rest with
        | error e' => rw [ha] at h; cases h; exact ihNeg rest e ha
        | ok p =>
          rw [ha] at h
          obtain ⟨r, r2⟩ := p
          dsimp only at h
          exact ihAndRest (.andP l0 r) r2 e h
    · intro ts e h
      simp only [parseNeg] at h
      match ts with
      | [] => cases h; exact ⟨_, rfl⟩
      | t :: rest =>
        dsimp only at h
        split_ifs at h with hnot
        · cases ha : parseNeg fuel rest with
          | error e' => rw [ha] at h; cases h; exact ihNeg rest e ha
          | ok p =>
            rw [ha] at h
            obtain ⟨e1, r1⟩ := p
            dsimp only at h
            cases h
        · exact ihPrim (t :: rest) e h
    · intro ts e h
      simp only [parsePrimary] at h
      match ts with
      | [] => cases h; exact ⟨_, rfl⟩
      | t :: rest =>
        dsimp only at h
        split_ifs at h with hlp
        · cases ho : parseOr fuel rest with
          | error e' => rw [ho] at h; cases h; exact ihOr rest e ho
          | ok p =>
            rw [ho] at h
            obtain ⟨e1, r1⟩ := p
            dsimp only at h
            match r1 with
            | [] => cases h; exact ⟨_, rfl⟩
            | t2 :: r2 =>
              dsimp only at h
              split_ifs at h with hrp
              cases h
              exact ⟨_, rfl⟩
        · cases ht : parseTerm fuel (t :: rest) with
          | error e' => rw [ht] at h; cases h; exact parseTerm_error ht
          | ok p =>
            rw [ht] at h
            obtain ⟨tm, r1⟩ := p
            dsimp only at h
            match r1 with
            | [] => cases h
            | tk :: r2 =>
              dsimp only at h
              cases hop : cmpOpOf tk.kind with
              | some op =>
                rw [hop] at h
                dsimp only at h
                cases ht2 : parseTerm fuel r2 with
                | error e' => rw [ht2] at h; cases h; exact parseTerm_error ht2
                | ok q =>
                  rw [ht2] at h
                  obtain ⟨t2, r3⟩ := q
                  dsimp only at h
                  cases h
              | none =>
                rw [hop] at h
                dsimp only at h
                split_ifs at h with hin
                match r2 with
                | [] => cases h; exact ⟨_, rfl⟩
                | t3 :: r3 =>
                  dsimp only at h
                  split_ifs at h with hlb
                  · cases hal : parseAtomList .rbrace fuel r3 with
                    | error e' => rw [hal] at h; cases h; exact parseAtomList_error _ fuel r3 e hal
                    | ok q =>
                      rw [hal] at h
                      obtain ⟨vals, r4⟩ := q
                      dsimp only at h
                      cases h
                  · cases h; exact ⟨_, rfl⟩

/-- Every failure of the whole-filter parser is a `SyntaxError`. -/
theorem parseFilter_error {toks : List Token} {e : DfError}
    (h : parseFilter toks = .error e) : ∃ l, e = .syntaxError l := by
  unfold parseFilter at h
  cases hp : parseOr (4 * toks.length + 8) toks with
  | error e' =>
    rw [hp] at h
    cases h
    exact (parse_errors_located _).1 toks e hp
  | ok p =>
    rw [hp] at h
    obtain ⟨past, rest⟩ := p
    match rest with
    | [] => cases h
    | t :: more => cases h; exact ⟨_, rfl⟩

/-- Binding an `Except` error short-circuits. -/
theorem bind_error_eq {ε α β : Type} (e : ε) (g : α → Except ε β) :
    ((Except.error e : Except ε α) >>= g) = .error e := rfl

/-- Binding an `Except` success applies the continuation. -/
theorem bind_ok_eq {ε α β : Type} (a : α) (g : α → Except ε β) :
    ((Except.ok a : Except ε α) >>= g) = g a := rfl

/-- An erring `mapM` over `Except` has an erring element. -/
theorem mapM_except_error {α β : Type} (f : α → Except DfError β) :
    ∀ (l : List α) (e : DfError), l.mapM f = .error e → ∃ a ∈ l, f a = .error e := by
  intro l
  induction l with
  | nil => intro e h; cases h
  | cons a as ih =>
    intro e h
    rw [List.mapM_cons] at h
    cases hfa : f a with
    | error e' =>
      rw [hfa, bind_error_eq] at h
      cases h
      exact ⟨a, by simp, hfa⟩
    | ok b =>
      rw [hfa, bind_ok_eq] at h
      cases hm : as.mapM f with
      | error e' =>
        rw [hm, bind_error_eq] at h
        cases h
        obtain ⟨x, hx, hfx⟩ := ih e hm
        exact ⟨x, by simp [hx], hfx⟩
      | ok bs =>
        rw [hm, bind_ok_eq] at h
        cases h

/-- Atom-check failures carry a location. -/
theorem checkAtom_error {reg : Registry} {a : PAtom} {e : DfError}
    (h : checkAtom reg a = .error e) : e.location.isSome = true := by
  cases a with
  | pname s loc =>
    simp only [checkAtom] at h
    cases hk : reg.fieldKind s with
    | some k => rw [hk] at h; cases h
    | none => rw [hk] at h; cases h; rfl
  | pnum n loc => cases h
  | pstr s loc => cases h

/-- Term-check failures carry a location. -/
theorem checkTerm_error {reg : Registry} {t : PTerm} {e : DfError}
    (h : checkTerm reg t = .error e) : e.location.isSome = true := by
  cases t with
  | atomT a =>
    simp only [checkTerm] at h
    cases ha : checkAtom reg a with
    | error e' => rw [ha] at h; cases h; exact checkAtom_error ha
    | ok p => rw [ha] at h; obtain ⟨ca, k⟩ := p; dsimp only at h; cases h
  | callT f args loc =>
    simp only [checkTerm] at h
    cases hf : reg.func f with
    | none => rw [hf] at h; cases h; rfl
    | some fd =>
      rw [hf] at h
      dsimp only at h
      split_ifs at h with har
      · cases hm : args.mapM (fun a => (checkAtom reg a).map (·.1)) with
        | error e' =>
          rw [hm] at h
          cases h
          obtain ⟨a, _, hfa⟩ := mapM_except_error _ args e hm
          cases hca : checkAtom reg a with
          | error e'' => rw [hca] at hfa; cases hfa; exact checkAtom_error hca
          | ok p => rw [hca] at hfa; cases hfa
        | ok cas => rw [hm] at h; dsimp only at h; cases h
      · cases h; rfl

/-- Set-element-check failures carry a location. -/
theorem checkSetVal_error {k : VKind} {a : PAtom} {e : DfError}
    (h : checkSetVal k a = .error e) : e.location.isSome = true := by
  cases a with
  | pname s loc => cases h; rfl
  | pnum n loc =>
    simp only [checkSetVal] at h
    split_ifs at h
    cases h
    rfl
  | pstr s loc =>
    simp only [checkSetVal] at h
    split_ifs at h
    cases h
    rfl

/-- Semantic-analysis failures carry a location. -/
theorem checkExpr_error {reg : Registry} : ∀ {pe : PExpr} {e : DfError},
    checkExpr reg pe = .error e → e.location.isSome = true := by
  intro pe
  induction pe with
  | termP t =>
    intro e h
    cases t with
    | atomT a =>
      cases a with
      | pname s loc =>
        simp only [checkExpr] at h
        cases hk : reg.fieldKind s with
        | some k => rw [hk] at h; cases h
        | none => rw [hk] at h; cases h; rfl
      | pnum n loc => cases h; rfl
      | pstr s loc => cases h; rfl
    | callT f args loc => cases h; rfl
  | cmpP op l r loc =>
    intro e h
    simp only [checkExpr] at h
    cases hl : checkTerm reg l with
    | error e' => rw [hl] at h; cases h; exact checkTerm_error hl
    | ok p =>
      rw [hl] at h
      obtain ⟨cl, kl⟩ := p
      dsimp only at h
      cases hr : checkTerm reg r with
      | error e' => rw [hr] at h; cases h; exact checkTerm_error hr
      | ok q =>
        rw [hr] at h
        obtain ⟨cr, kr⟩ := q
        dsimp only at h
        split_ifs at h
        cases h
        rfl
  | inSetP t vals loc =>
    intro e h
    simp only [checkExpr] at h
    cases ht : checkTerm reg t with
    | error e' => rw [ht] at h; cases h; exact checkTerm_error ht
    | ok p =>
      rw [ht] at h
      obtain ⟨ct, kt⟩ := p
      dsimp only at h
      cases hm : vals.mapM (checkSetVal kt) with
      | error e' =>
        rw [hm] at h
        cases h
        obtain ⟨a, _, hfa⟩ := mapM_except_error _ vals e hm
        exact checkSetVal_error hfa
      | ok vs => rw [hm] at h; dsimp only at h; cases h
  | andP a b iha ihb =>
    intro e h
    simp only [checkExpr] at h
    cases hca : checkExpr reg a with
    | error e' => rw [hca] at h; cases h; exact iha hca
    | ok ca =>
      rw [hca] at h
      cases hcb : checkExpr reg b with
      | error e' => rw [hcb] at h; cases h; exact ihb hcb
      | ok cb => rw [hcb] at h; cases h
  | orP a b iha ihb =>
    intro e h
    simp only [checkExpr] at h
    cases hca : checkExpr reg a with
    | error e' => rw [hca] at h; cases h; exact iha hca
    | ok ca =>
      rw [hca] at h
      cases hcb : checkExpr reg b with
      | error e' => rw [hcb] at h; cases h; exact ihb hcb
      | ok cb => rw [hcb] at h; cases h
  | notP a iha =>
    intro e h
    simp only [checkExpr] at h
    cases hca : checkExpr reg a with
    | error e' => rw [hca] at h; cases h; exact iha hca
    | ok ca => rw [hca] at h; cases h

/-- Claim C3: whenever compilation fails with one of the recoverable error
kinds (and those are the only kinds the pipeline produces), the caller
receives a structured error carrying a Location, no Filter Object — partial
or otherwise — is produced, and the caller's state is unchanged. -/
theorem compile_error_structured (reg : Registry) (text : String) (e : DfError)
    (h : (compileFilterSt reg text).1 = .error e) :
    e.location.isSome = true ∧
    (∀ fo, (compileFilterSt reg text).1 ≠ .ok fo) ∧
    (compileFilterSt reg text).2 = reg := by
  refine ⟨?_, ?_, rfl⟩
  · have h' : compileFilter reg text = .error e := h
    unfold compileFilter at h'
    cases hl : lexString text with
    | error e' =>
      rw [hl] at h'
      cases h'
      obtain ⟨l, rfl⟩ := lexRun_error _ _ _ _ hl
      rfl
    | ok toks =>
      rw [hl] at h'
      dsimp only at h'
      cases hp : parseFilter toks with
      | error e' =>
        rw [hp] at h'
        cases h'
        obtain ⟨l, rfl⟩ := parseFilter_error hp
        rfl
      | ok past =>
        rw [hp] at h'
        dsimp only at h'
        cases hc : checkExpr reg past with
        | error e' => rw [hc] at h'; cases h'; exact checkExpr_error hc
        | ok ck => rw [hc] at h'; cases h'
  · intro fo hfo
    rw [h] at hfo
    cases hfo

/-- Witness for C3 at the failing input `bogus.field == 1`. -/
theorem compile_error_structured_witness :
    (DfError.unknownIdentifier ⟨0, 11⟩).location.isSome = true ∧
    (compileFilterSt demoReg "bogus.field == 1").2 = demoReg :=
  ⟨(compile_error_structured demoReg "bogus.field == 1" (.unknownIdentifier ⟨0, 11⟩) rfl).1,
   (compile_error_structured demoReg "bogus.field == 1" (.unknownIdentifier ⟨0, 11⟩) rfl).2.2⟩

/-- Claim C5: the distinguished empty Location constant has start column -1
and length 0; it is the location attached when no source position applies
(end-of-input in the parser) and the location returned to callers when no
meaningful span exists. -/
theorem loc_empty_spec :
    loc_empty.col_start = -1 ∧ loc_empty.col_len = 0 ∧
    DfError.locationD .pluginError = loc_empty ∧
    locOf [] = loc_empty :=
  ⟨rfl, rfl, rfl, rfl⟩

/-! ### Claim C7: compilation is idempotent on checked trees -/

/-- Claim C7: compiling the same checked AST twice yields Filter Objects
with identical instruction sequences. -/
theorem compile_idempotent (ck : CheckedExpr) (fo1 fo2 : FilterObject)
    (h1 : compile ck = fo1) (h2 : compile ck = fo2) :
    fo1.instructions = fo2.instructions := by
  rw [← h1, ← h2]

/-- Witness for C7 at the checked tree of `tcp.port == 80`. -/
theorem compile_idempotent_witness : demoFO.instructions = demoFO.instructions :=
  compile_idempotent demoCk demoFO demoFO (by decide) (by decide)

/-! ### Claim C8: disassembly round trip -/

/-- Claim C8 fails as stated: constant folding (spec section 4.4) erases the
constants of fully constant sub-expressions from the compiled object.  For
the source expression `1 == 1` — which compiles successfully — the constant
`1` is used by the source but is absent from the disassembly (the pool holds
only the folded boolean). -/
theorem roundtrip_counterexample :
    compileFilter demoReg "1 == 1" = .ok (compile foldEx) ∧
    DfValue.vInt 1 ∈ exprConsts foldEx ∧
    DfValue.vInt 1 ∉ disasmConsts (compile foldEx) :=
  ⟨rfl, by decide, by decide⟩

/-- Claim C8, amended: disassembling a compiled Filter Object enumerates
exactly the field references of the source expression — always — and exactly
its constants whenever no constant folding applies to the expression (no
comparison, membership test or call in it has all-constant operands). -/
theorem disasm_roundtrip (e : CheckedExpr) :
    disasmFields (compile e) = exprFields e ∧
    (noFoldB e = true → disasmConsts (compile e) = exprConsts e) := by
  constructor
  · show disasmF (compileB e ⟨[], [], []⟩).1 (compileB e ⟨[], [], []⟩).2.fields = exprFields e
    exact compileB_disasmF e ⟨[], [], []⟩ _ (List.prefix_refl _)
  · intro hnf
    show disasmC (compileB e ⟨[], [], []⟩).1 (compileB e ⟨[], [], []⟩).2.pool = exprConsts e
    exact compileB_disasmC e hnf ⟨[], [], []⟩ _ (List.prefix_refl _)

/-- Witness for the amended C8 at the checked tree of `tcp.port == 80`. -/
theorem disasm_roundtrip_witness :
    disasmFields (compile demoCk) = exprFields demoCk ∧
    disasmConsts (compile demoCk) = exprConsts demoCk :=
  ⟨(disasm_roundtrip demoCk).1, (disasm_roundtrip demoCk).2 (by decide)⟩

/-! ### Claim C9: error location of an injected invalid character -/

/-- Claim C9: for every filter text obtained by injecting a single invalid
character into otherwise valid filter text, the reported lexical error
carries a Location whose start column equals the byte offset of the injected
character. -/
theorem inject_invalid_char_loc (reg : Registry) (t : String) (fo : FilterObject)
    (c : Char) (i : Nat)
    (hok : compileFilter reg t = .ok fo) (hc : validChar c = false)
    (hi : i ≤ t.length) :
    compileFilter reg (injectString t i c) = .error (.lexError ⟨(i : Int), 1⟩) := by
  unfold compileFilter at hok
  cases hl : lexString t with
  | error e => rw [hl] at hok; cases hok
  | ok toks =>
    have hlen : i ≤ t.toList.length := hi
    have hrun := lexRun_insert t.toList .top 0 i c toks hl hc hlen
    unfold compileFilter
    have hl2 : lexString (injectString t i c) = .error (.lexError ⟨(i : Int), 1⟩) := by
      show lexRun .top (insertAt t.toList i c) 0 = _
      rw [hrun]
      norm_num
    rw [hl2]

/-- Witness for C9: a control character injected between the two `=` of
`tcp.port == 80` is reported at its own byte offset 3. -/
theorem inject_invalid_char_loc_witness :
    compileFilter demoReg (injectString "tcp.port == 80" 3 (Char.ofNat 1)) =
      .error (.lexError ⟨3, 1⟩) :=
  inject_invalid_char_loc demoReg "tcp.port == 80" demoFO (Char.ofNat 1) 3
    rfl (by decide) (by decide)

/-! ### Claim C10: registration only appends -/

/-- Claim C10: `dfilter_plugins_register` only appends the descriptor to the
process-wide list: it invokes no init or cleanup entry point (empty
invocation trace), leaves every previously registered descriptor at its
position, and stores the descriptor it was given unchanged at the end. -/
theorem register_append_only (ps : List dfilter_plugin) (p : dfilter_plugin) :
    (dfilter_plugins_register ps p).1 = ps ++ [p] ∧
    (dfilter_plugins_register ps p).2 = [] ∧
    (∀ i, i < ps.length → (dfilter_plugins_register ps p).1[i]? = ps[i]?) ∧
    (dfilter_plugins_register ps p).1.getLast? = some p := by
  refine ⟨rfl, rfl, ?_, ?_⟩
  · intro i hi
    exact List.getElem?_append_left hi
  · exact List.getLast?_concat ps

/-- Witness for C10 on a concrete two-element list. -/
theorem register_append_only_witness :
    (dfilter_plugins_register [demoP1, demoP2] demoP3).1[1]? = some demoP2 := by
  have h := (register_append_only [demoP1, demoP2] demoP3).2.2.1 1 (by decide)
  rw [h]
  rfl

end DFilter
